import Mathlib

/-!
Shallow embedding of the phitodo sync core (view classifier and GitHub
reconciliation engine) together with proofs of the specification claims.

Conventions of the embedding:
* calendar dates (`chrono::NaiveDate`) are modelled as integers (only their
  order matters) and timestamps (`chrono::DateTime<Utc>`) as naturals;
  every call site of `Utc::now()` receives the current time
  as an explicit `now` parameter, and `Utc::now().date_naive()` is the
  injected `today` parameter of the classifier;
* `uuid::Uuid::new_v4()` is modelled by consuming fresh identifiers from an
  explicit `supply : List String`;
* fallible repository calls (`insert_task`, `update_task`, `insert_project`,
  `get_next_order_index`) are modelled on their success path, matching the
  code's behaviour when the backing store accepts the write;
* `HashMap`/`HashSet` are modelled as association lists / membership lists
  with insert-shadows-earlier semantics.
-/

namespace Phitodo

/-! ### Generic stable sorting (model of Rust's stable `sort_by`) -/

/-- Insert `a` into `l` before the first element `b` with `le a b`.
Together with `insertionSortBy` this computes the unique stable sort of the
list for the total preorder `le`, which is what Rust's stable `sort_by`
produces. -/
def orderedInsertBy (le : α → α → Bool) (a : α) : List α → List α
  | [] => [a]
  | b :: l => if le a b then a :: b :: l else b :: orderedInsertBy le a l

/-- Stable insertion sort by a boolean total preorder `le`. -/
def insertionSortBy (le : α → α → Bool) (l : List α) : List α :=
  l.foldr (orderedInsertBy le) []

/-! ### Entity model (src/models/task.rs, src/models/project.rs) -/

inductive TaskStatus where
  | inbox
  | active
  | scheduled
  | completed
  | cancelled
deriving DecidableEq, Repr

inductive TaskPriority where
  | noPriority
  | low
  | medium
  | high
deriving DecidableEq, Repr

inductive TaskKind where
  | task
  | bug
  | feature
  | chore
  | ghIssue
  | ghPr
  | ghReview
deriving DecidableEq, Repr

inductive TaskSize where
  | xs
  | s
  | m
  | l
deriving DecidableEq, Repr

/-- The Task row (src/models/task.rs).  `metadata` is the string map, kept as
an association list in insertion order. -/
structure Task where
  id : String
  title : String
  notes : Option String
  created_at : Nat
  updated_at : Nat
  due_date : Option Int
  start_date : Option Int
  completed_at : Option Nat
  project_id : Option String
  priority : TaskPriority
  tags : List String
  status : TaskStatus
  order_index : Int
  deleted : Bool
  kind : Option TaskKind
  size : Option TaskSize
  assignee : Option String
  context_url : Option String
  metadata : List (String × String)
deriving DecidableEq, Repr

/-- `Task::new` (src/models/task.rs): fresh id, equal timestamps, Inbox
status, everything else empty. -/
def Task.new (id : String) (now : Nat) (title : String) : Task :=
  { id := id
    title := title
    notes := none
    created_at := now
    updated_at := now
    due_date := none
    start_date := none
    completed_at := none
    project_id := none
    priority := .noPriority
    tags := []
    status := .inbox
    order_index := 0
    deleted := false
    kind := none
    size := none
    assignee := none
    context_url := none
    metadata := [] }

/-- The Project row (src/models/project.rs). -/
structure Project where
  id : String
  name : String
  description : Option String
  color : Option String
  icon : Option String
  order_index : Int
  is_inbox : Bool
  created_at : Nat
  updated_at : Nat
  deleted : Bool
deriving DecidableEq, Repr

/-- `Project::new` (src/models/project.rs). -/
def Project.new (id : String) (now : Nat) (name : String) : Project :=
  { id := id
    name := name
    description := none
    color := none
    icon := none
    order_index := 0
    is_inbox := false
    created_at := now
    updated_at := now
    deleted := false }

/-! ### View classifier (src/services/filter_service.rs)

Each Rust filter computes `today` from `Utc::now().date_naive()`; here it is
the injected parameter `today`, keeping the functions deterministic. -/

/-- `filter_inbox`. -/
def filter_inbox (tasks : List Task) : List Task :=
  tasks.filter (fun t => decide (t.status = .inbox) && !t.deleted)

/-- `filter_today`: due today or overdue, not completed, not deleted. -/
def filter_today (tasks : List Task) (today : Int) : List Task :=
  tasks.filter (fun t =>
    !t.deleted && decide (t.status ≠ .completed) &&
      (match t.due_date with
       | some due => decide (due ≤ today)
       | none => false))

/-- `filter_upcoming`: strictly future due dates, not completed, not
deleted. -/
def filter_upcoming (tasks : List Task) (today : Int) : List Task :=
  tasks.filter (fun t =>
    !t.deleted && decide (t.status ≠ .completed) &&
      (match t.due_date with
       | some due => decide (today < due)
       | none => false))

/-- `filter_anytime`: no due date, not completed, not deleted. -/
def filter_anytime (tasks : List Task) : List Task :=
  tasks.filter (fun t =>
    !t.deleted && decide (t.status ≠ .completed) && decide (t.due_date = none))

/-- `filter_completed`. -/
def filter_completed (tasks : List Task) : List Task :=
  tasks.filter (fun t => !t.deleted && decide (t.status = .completed))

/-- `filter_review`: strictly overdue, not completed, not deleted. -/
def filter_review (tasks : List Task) (today : Int) : List Task :=
  tasks.filter (fun t =>
    !t.deleted && decide (t.status ≠ .completed) &&
      (match t.due_date with
       | some due => decide (due < today)
       | none => false))

/-- The comparator of `sort_by_due_date` as a boolean "not greater"
relation: dated before undated, dated compared by date, undated ties
compared by `order_index`. -/
def dueLe (a b : Task) : Bool :=
  match a.due_date, b.due_date with
  | some x, some y => decide (x ≤ y)
  | some _, none => true
  | none, some _ => false
  | none, none => decide (a.order_index ≤ b.order_index)

/-- `sort_by_due_date` (src/services/filter_service.rs): stable sort by the
comparator `dueLe`. -/
def sort_by_due_date (tasks : List Task) : List Task :=
  insertionSortBy dueLe tasks

/-! ### Task service (src/services/task_service.rs) -/

/-- `TaskService::set_status`: set the status, bump `updated_at`, and stamp
or clear `completed_at` according to the new status. -/
def set_status (t : Task) (st : TaskStatus) (now : Nat) : Task :=
  let t1 : Task := { t with status := st, updated_at := now }
  if st = .completed then { t1 with completed_at := some now }
  else { t1 with completed_at := none }

/-- `TaskService::toggle_completed`. -/
def toggle_completed (t : Task) (now : Nat) : Task :=
  if t.status = .completed then set_status t .inbox now
  else set_status t .completed now

/-- The invariant of §3: a task is Completed exactly when `completed_at` is
populated. -/
def task_invariant (t : Task) : Prop :=
  t.status = .completed ↔ t.completed_at.isSome

instance (t : Task) : Decidable (task_invariant t) := by
  unfold task_invariant; infer_instance

/-! ### GitHub items (src/services/github_service.rs)

The `user` and `pull_request` fields of `GitHubIssue` are dropped: the sync
core never reads them (`pull_request` is only consulted by the fetcher's
`is_pr` filter, which runs before a snapshot is delivered). -/

structure GitHubIssue where
  id : Int
  number : Int
  title : String
  html_url : String
  state : String
  body : Option String
  /-- `repository.full_name` when the API provided a repository object. -/
  repository : Option String
  repository_url : Option String
deriving DecidableEq, Repr

/-- `extract_repo_from_url`: take the last two `/`-separated components. -/
def extract_repo_from_url (url : String) : Option String :=
  match (url.splitOn ("/")).reverse with
  | repo :: owner :: _ => some (owner ++ "/" ++ repo)
  | _ => none

/-- `extract_repo_from_html_url`: `https://github.com/owner/repo/...`. -/
def extract_repo_from_html_url (url : String) : Option String :=
  match url.splitOn ("/") with
  | _ :: _ :: host :: owner :: repo :: _ =>
      if host = "github.com" then some (owner ++ "/" ++ repo) else none
  | _ => none

/-- `GitHubIssue::repo_name`: explicit repository field, else parse the API
resource URL, else parse the canonical URL, else `"unknown"`. -/
def GitHubIssue.repo_name (item : GitHubIssue) : String :=
  match item.repository with
  | some full => full
  | none =>
    match item.repository_url.bind extract_repo_from_url with
    | some n => n
    | none =>
      match extract_repo_from_html_url item.html_url with
      | some n => n
      | none => "unknown"

/-- Contiguous-sublist test on character lists. -/
def charsContain (pat : List Char) : List Char → Bool
  | [] => pat.isEmpty
  | c :: rest => pat.isPrefixOf (c :: rest) || charsContain pat rest

/-- Rust `str::contains` (substring test), used for `contains("github.com")`. -/
def containsSubstr (s pat : String) : Bool :=
  charsContain pat.toList s.toList

/-- The remote snapshot delivered by `GitHubService::fetch_all`. -/
structure GitHubData where
  review_prs : List GitHubIssue
  my_prs : List GitHubIssue
  assigned_issues : List GitHubIssue
deriving DecidableEq, Repr

/-- The flattening order of `sync_github_to_tasks` lines 604-614: assigned
issues, then my PRs, then review PRs, each tagged with its origin string. -/
def allItems (data : GitHubData) : List (GitHubIssue × String) :=
  data.assigned_issues.map (fun i => (i, "issue")) ++
    data.my_prs.map (fun i => (i, "my_pr")) ++
    data.review_prs.map (fun i => (i, "review"))

/-- The canonical URLs of a snapshot (the final contents of `seen_urls`). -/
def itemUrls (data : GitHubData) : List String :=
  (allItems data).map (fun p => p.1.html_url)

/-! ### Repository (src/db/repository.rs)

The database is the full row store, soft-deleted rows included.  `SELECT`
with `WHERE deleted = 0 ORDER BY ...` is a filter followed by a stable sort
on the ORDER BY key. -/

structure DB where
  tasks : List Task
  projects : List Project
deriving DecidableEq, Repr

/-- `ORDER BY order_index ASC, created_at DESC` as a boolean preorder. -/
def loadTaskLe (a b : Task) : Bool :=
  decide (a.order_index < b.order_index) ||
    (decide (a.order_index = b.order_index) && decide (b.created_at ≤ a.created_at))

/-- `ORDER BY order_index ASC` for projects. -/
def loadProjectLe (a b : Project) : Bool :=
  decide (a.order_index ≤ b.order_index)

/-- `Repository::get_all_tasks`: non-deleted rows, ordered by
`order_index ASC, created_at DESC`. -/
def get_all_tasks (db : DB) : List Task :=
  insertionSortBy loadTaskLe (db.tasks.filter (fun t => !t.deleted))

/-- `Repository::get_all_projects`: non-deleted rows, ordered by
`order_index ASC`. -/
def get_all_projects (db : DB) : List Project :=
  insertionSortBy loadProjectLe (db.projects.filter (fun p => !p.deleted))

/-- `Repository::insert_task`. -/
def insert_task (db : DB) (t : Task) : DB :=
  { db with tasks := db.tasks ++ [t] }

/-- `Repository::update_task`: rewrite every row whose id matches (`UPDATE
tasks SET ... WHERE id = ?1`). -/
def update_task (db : DB) (t : Task) : DB :=
  { db with tasks := db.tasks.map (fun r => if r.id = t.id then t else r) }

/-- `Repository::insert_project`. -/
def insert_project (db : DB) (p : Project) : DB :=
  { db with projects := db.projects ++ [p] }

/-- `COALESCE(MAX(order_index), 0) + 1` over the non-deleted rows of a
table, given the list of their order indices. -/
def nextOrderIndexOf (indices : List Int) : Int :=
  (match indices with
   | [] => 0
   | x :: xs => xs.foldl max x) + 1

/-- `Repository::get_next_order_index("tasks")`. -/
def next_task_order_index (db : DB) : Int :=
  nextOrderIndexOf ((db.tasks.filter (fun t => !t.deleted)).map Task.order_index)

/-- `Repository::get_next_order_index("projects")`. -/
def next_project_order_index (db : DB) : Int :=
  nextOrderIndexOf ((db.projects.filter (fun p => !p.deleted)).map Project.order_index)

/-- The row currently stored under a task id (first match, as a SQL primary
key lookup). -/
def rowById (db : DB) (i : String) : Option Task :=
  db.tasks.find? (fun r => decide (r.id = i))

/-! ### Reconciliation engine (src/app.rs, `App::sync_github_to_tasks`) -/

/-- One persisted write, recorded for the redundant-write analysis. -/
inductive WriteOp where
  | insertTask (t : Task)
  | updateTask (t : Task)
  | insertProject (p : Project)
deriving DecidableEq, Repr

/-- Accumulator threaded through the item loop: the live database, the
repo-name → project-id index, the seen-URL set, the fresh-id supply and the
write log. -/
structure SyncAcc where
  db : DB
  repoMap : List (String × String)
  seen : List String
  supply : List String
  log : List WriteOp
deriving Repr

/-- `HashMap` lookup on the association list: the most recent insertion
shadows earlier ones, so entries are prepended and looked up front to
back. -/
def assocLookup : List (String × String) → String → Option String
  | [], _ => none
  | (k, v) :: rest, n => if k = n then some v else assocLookup rest n

/-- Consume a fresh identifier from the supply (the model of
`Uuid::new_v4`). -/
def takeFresh : List String → String × List String
  | [] => ("fresh", [])
  | x :: xs => (x, xs)

/-- The match predicate used on line 653: exact equality of `context_url`
with the remote item's canonical URL. -/
def matchesUrl (u : String) (t : Task) : Bool :=
  decide (t.context_url = some u)

/-- Lines 657-677: the in-place update of a task matched by `context_url`.
Returns the row to persist, or `none` when no-op (not written). -/
def processExistingTask (item : GitHubIssue) (projectId : Option String)
    (now : Nat) (task : Task) : Option Task :=
  let step1 :=
    if item.state = "closed" ∧ task.status ≠ .completed then
      some { task with status := .completed, completed_at := some now }
    else none
  let step2 :=
    if task.project_id = none ∧ projectId.isSome then
      some { (step1.getD task) with project_id := projectId }
    else step1
  step2.map (fun u => { u with updated_at := now })

/-- Lines 679-701: the task created for an unmatched remote item. -/
def newTaskFromItem (id : String) (now : Nat) (item : GitHubIssue)
    (githubType : String) (projectId : Option String) (orderIdx : Int) : Task :=
  { Task.new id now item.title with
      context_url := some item.html_url
      status := .inbox
      project_id := projectId
      notes := item.body
      metadata :=
        [("github_id", toString item.id), ("github_type", githubType),
          ("github_repo", item.repo_name)]
      kind :=
        match githubType with
        | "issue" => some .ghIssue
        | "my_pr" => some .ghPr
        | "review" => some .ghReview
        | _ => none
      order_index := orderIdx }

/-- The string stored in `project.icon` for GitHub-created projects (the
glyph literal of line 639). -/
def githubIcon : String := ""

/-- Lines 629-650: record the item's URL as seen and resolve its project:
look the container name up in the index, else create and insert a fresh
project (GitHub icon, fresh ordering index) and register it in the index. -/
def resolveProject (now : Nat) (acc : SyncAcc) (item : GitHubIssue) :
    Option String × SyncAcc :=
  let seen' := item.html_url :: acc.seen
  let repoName := item.repo_name
  match assocLookup acc.repoMap repoName with
  | some pid => (some pid, { acc with seen := seen' })
  | none =>
      let fresh := takeFresh acc.supply
      let idx := next_project_order_index acc.db
      let project : Project :=
        { Project.new fresh.1 now repoName with
            icon := some githubIcon, order_index := idx }
      (some project.id,
        { db := insert_project acc.db project
          repoMap := (repoName, project.id) :: acc.repoMap
          seen := seen'
          supply := fresh.2
          log := acc.log ++ [.insertProject project] })

/-- Lines 652-701: match the item against the fixed loaded snapshot
`tasks1` by `context_url`; update the match in place when needed, else
create a task seeded from the item. -/
def applyMatch (tasks1 : List Task) (now : Nat) (item : GitHubIssue)
    (githubType : String) (projectId : Option String) (acc1 : SyncAcc) : SyncAcc :=
  match tasks1.find? (matchesUrl item.html_url) with
  | some task =>
      match processExistingTask item projectId now task with
      | some updated =>
          { acc1 with
              db := update_task acc1.db updated
              log := acc1.log ++ [.updateTask updated] }
      | none => acc1
  | none =>
      let fresh := takeFresh acc1.supply
      let idx := next_task_order_index acc1.db
      let task := newTaskFromItem fresh.1 now item githubType projectId idx
      { acc1 with
          db := insert_task acc1.db task
          supply := fresh.2
          log := acc1.log ++ [.insertTask task] }

/-- Lines 629-702: processing of one remote item against the fixed snapshot
`tasks1` of loaded tasks (`self.tasks` is not reloaded inside the loop). -/
def processItem (tasks1 : List Task) (now : Nat) (acc : SyncAcc)
    (pair : GitHubIssue × String) : SyncAcc :=
  let resolved := resolveProject now acc pair.1
  applyMatch tasks1 now pair.1 pair.2 resolved.1 resolved.2

/-- Lines 710-714: the promoted row for a task whose GitHub item vanished
from the open-item snapshot. -/
def closeTask (now : Nat) (t : Task) : Task :=
  { t with status := .completed, completed_at := some now, updated_at := now }

/-- Lines 704-718: the closure pass over the loaded snapshot `tasks1`. -/
def closurePass (tasks1 : List Task) (seen : List String) (now : Nat)
    (acc : SyncAcc) : SyncAcc :=
  tasks1.foldl
    (fun a t =>
      match t.context_url with
      | some url =>
          if containsSubstr url ("github.com") && !(decide (url ∈ seen)) &&
              decide (t.status ≠ .completed) then
            { a with
                db := update_task a.db (closeTask now t)
                log := a.log ++ [.updateTask (closeTask now t)] }
          else a
      | none => a)
    acc

/-- Lines 616-627: the starting accumulator — the `repo_to_project` map is
built by inserting every loaded project keyed by display name (a later
duplicate name overwrites an earlier one, as with `HashMap::insert`), and
the seen set and write log start empty. -/
def initialAcc (db : DB) (supply : List String) : SyncAcc :=
  { db := db
    repoMap := (get_all_projects db).foldl (fun m p => (p.name, p.id) :: m) []
    seen := []
    supply := supply
    log := [] }

/-- The state after the item loop (lines 629-702). -/
def itemsPhase (db : DB) (data : GitHubData) (now : Nat)
    (supply : List String) : SyncAcc :=
  (allItems data).foldl (processItem (get_all_tasks db) now) (initialAcc db supply)

/-- `App::sync_github_to_tasks`: flatten the snapshot, build the project
index from the loaded projects, run the item loop against the loaded tasks,
then run the closure pass.  Returns the resulting database and the list of
persisted writes (the final `load_data` reload is `get_all_tasks` /
`get_all_projects` on the result). -/
def sync_github_to_tasks (db : DB) (data : GitHubData) (now : Nat)
    (supply : List String) : DB × List WriteOp :=
  let acc2 := closurePass (get_all_tasks db) (itemsPhase db data now supply).seen now
    (itemsPhase db data now supply)
  (acc2.db, acc2.log)

/-- Mid-loop state of the project index for a container name `c` that is
not yet resolved: the index has no entry for `c`, no non-deleted project
row is named `c`, and no created task carries `c` as its container. -/
def LeftInv (c : String) (acc : SyncAcc) : Prop :=
  assocLookup acc.repoMap c = none ∧
    (∀ p ∈ acc.db.projects, p.deleted = false → p.name ≠ c) ∧
    ∀ op ∈ acc.log, ∀ nt, op = WriteOp.insertTask nt →
      ("github_repo", c) ∉ nt.metadata

/-- Mid-loop state of the project index once the container `c` is
resolved to the project id `pc`: the index maps `c` to `pc`, exactly one
non-deleted project row named `c` exists and its id is `pc`, and every
created task for container `c` is attached to `pc`. -/
def RightInv (c pc : String) (acc : SyncAcc) : Prop :=
  assocLookup acc.repoMap c = some pc ∧
    (acc.db.projects.filter (fun p => !p.deleted && decide (p.name = c))).map
        Project.id = [pc] ∧
    ∀ op ∈ acc.log, ∀ nt, op = WriteOp.insertTask nt →
      ("github_repo", c) ∈ nt.metadata → nt.project_id = some pc

/-- The fields of a task row that no write of one reconciliation pass ever
changes: row identity, match key, soft-delete flag and the two `ORDER BY`
sort keys.  `RowRel r x` relates an original row `r` to its current
version `x`. -/
def RowRel (r x : Task) : Prop :=
  x.id = r.id ∧ x.context_url = r.context_url ∧ x.deleted = r.deleted ∧
    x.order_index = r.order_index ∧ x.created_at = r.created_at

/-- Properties of the rows appended by the item loop: each carries a
resolved project, is live, has an identifier drawn from the fresh supply,
a `context_url` already recorded as seen, and an ordering index past every
live original row; collectively their indices are strictly increasing. -/
def NewRows (db0 : DB) (freshSet : List String) (seen : List String)
    (new : List Task) : Prop :=
  (∀ y ∈ new, y.project_id.isSome = true ∧ y.deleted = false ∧
      y.id ∈ freshSet ∧ (∃ u', y.context_url = some u' ∧ u' ∈ seen) ∧
      (∀ r ∈ db0.tasks, r.deleted = false → r.order_index < y.order_index)) ∧
    new.Pairwise (fun y z => y.order_index < z.order_index)

/-- The state invariant of the item loop used for the idempotence claim:
the store is the original rows (updated in place, sort keys intact)
followed by the created rows; every row sharing an id with a loaded task
is either that untouched task or already has a project; every row is an
original row or carries a seen URL; and the supply only shrinks from the
back. -/
def C1Inv (db0 : DB) (supply0 : List String) (acc : SyncAcc) : Prop :=
  (∃ old new, acc.db.tasks = old ++ new ∧
      List.Forall₂ RowRel db0.tasks old ∧
      NewRows db0 ("fresh" :: supply0) acc.seen new) ∧
    (∀ x ∈ acc.db.tasks, ∀ T ∈ get_all_tasks db0, x.id = T.id →
      (x = T ∨ x.project_id.isSome = true)) ∧
    (∀ x ∈ acc.db.tasks, x ∈ db0.tasks ∨
      (∃ u', x.context_url = some u' ∧ u' ∈ acc.seen)) ∧
    List.IsSuffix acc.supply supply0

/-- A persisted write keeps §3's Completed/`completed_at` invariant on any
task it stores. -/
def TaskWriteOK (op : WriteOp) : Prop :=
  (∀ t, op = .insertTask t → task_invariant t) ∧
    (∀ t, op = .updateTask t → task_invariant t)

/-! ### App plumbing (src/app.rs, `poll_async_messages` / `load_data`) -/

/-- The in-memory application state touched by the GitHub message handler. -/
structure AppState where
  db : DB
  tasks : List Task
  projects : List Project
  githubError : Option String
deriving Repr

/-- `poll_async_messages`, `GitHubDataReady` arm: on success reconcile and
reload (`load_data`); on a fetch error only record the error message. -/
def handleGitHubDataReady (st : AppState) (now : Nat) (supply : List String)
    (result : Except String GitHubData) : AppState :=
  match result with
  | .ok data =>
      let r := sync_github_to_tasks st.db data now supply
      { st with
          db := r.1
          tasks := get_all_tasks r.1
          projects := get_all_projects r.1
          githubError := none }
  | .error e => { st with githubError := some e }

/-! ### Concrete fixtures for counterexamples and witnesses -/

def emptyDB : DB := { tasks := [], projects := [] }

def emptyData : GitHubData := { review_prs := [], my_prs := [], assigned_issues := [] }

/-- A remote item that is already closed but unknown locally. -/
def cxClosedItem : GitHubIssue :=
  { id := 1, number := 1, title := "t", html_url := "https://github.com/o/r/issues/1",
    state := "closed", body := none, repository := some "o/r", repository_url := none }

def cxClosedData : GitHubData :=
  { review_prs := [], my_prs := [], assigned_issues := [cxClosedItem] }

/-- An open remote item. -/
def wOpenItem : GitHubIssue :=
  { id := 2, number := 2, title := "open one", html_url := "https://github.com/o/r/issues/2",
    state := "open", body := some "b", repository := some "o/r", repository_url := none }

def wOpenData : GitHubData :=
  { review_prs := [], my_prs := [], assigned_issues := [wOpenItem] }

/-- Two equal-due-date tasks whose order indices decrease. -/
def cxTieA : Task := { Task.new "a" 0 "A" with due_date := some 5, order_index := 7 }

def cxTieB : Task := { Task.new "b" 0 "B" with due_date := some 5, order_index := 3 }

/-- An active local task that originated from GitHub. -/
def w3Task : Task :=
  { Task.new "t3" 0 "from github" with
      status := .active, context_url := some "https://github.com/o/r/issues/9" }

def w3DB : DB := { tasks := [w3Task], projects := [] }

/-- A matched task that already belongs to a different project. -/
def cx5Task : Task :=
  { Task.new "t5" 0 "owned" with
      project_id := some "p0", context_url := some "https://github.com/o/r/issues/1" }

def cx5Project : Project := { Project.new "p0" 0 "Other" with order_index := 1 }

def cx5DB : DB := { tasks := [cx5Task], projects := [cx5Project] }

def cx5Item1 : GitHubIssue :=
  { id := 11, number := 11, title := "one", html_url := "https://github.com/o/r/issues/1",
    state := "open", body := none, repository := some "o/r", repository_url := none }

def cx5Item2 : GitHubIssue :=
  { id := 12, number := 12, title := "two", html_url := "https://github.com/o/r/issues/2",
    state := "open", body := none, repository := some "o/r", repository_url := none }

def cx5Data : GitHubData :=
  { review_prs := [], my_prs := [], assigned_issues := [cx5Item1, cx5Item2] }

/-- An active local task matched by `cxClosedItem`'s URL. -/
def w6Task : Task :=
  { Task.new "t6" 0 "matched" with
      status := .active, context_url := some "https://github.com/o/r/issues/1" }

/-- A classifier fixture: active, due on day 3. -/
def w7Task : Task := { Task.new "t7" 0 "due three" with status := .active, due_date := some 3 }

/-- A classifier fixture: active, no due date. -/
def w8Task : Task := { Task.new "t8" 0 "undated" with status := .active }

/-- The value `processExistingTask` produces for `cxClosedItem` against
`w6Task` with resolved project `"p"` at time 5. -/
def w6Result : Task :=
  { w6Task with
      status := .completed, completed_at := some 5, project_id := some "p",
      updated_at := 5 }

/-- A soft-deleted local task carrying a GitHub URL. -/
def w10Task : Task :=
  { Task.new "t10" 0 "was deleted" with
      deleted := true, context_url := some "https://github.com/o/r/issues/5" }

def w10DB : DB := { tasks := [w10Task], projects := [] }

def w10Item : GitHubIssue :=
  { id := 5, number := 5, title := "returns", html_url := "https://github.com/o/r/issues/5",
    state := "open", body := none, repository := some "o/r", repository_url := none }

def w10Data : GitHubData :=
  { review_prs := [], my_prs := [], assigned_issues := [w10Item] }

/-! ## Lemma layer: stable sorting -/

theorem perm_orderedInsertBy (le : α → α → Bool) (a : α) (l : List α) :
    List.Perm (orderedInsertBy le a l) (a :: l) := by
  induction l with
  | nil => simp [orderedInsertBy]
  | cons b l ih =>
    simp only [orderedInsertBy]
    by_cases h : le a b = true
    · rw [if_pos h]
    · rw [if_neg h]
      exact (ih.cons b).trans (List.Perm.swap a b l)

theorem perm_insertionSortBy (le : α → α → Bool) (l : List α) :
    List.Perm (insertionSortBy le l) l := by
  induction l with
  | nil => simp [insertionSortBy]
  | cons a l ih =>
    have h : insertionSortBy le (a :: l) = orderedInsertBy le a (insertionSortBy le l) := rfl
    rw [h]
    exact (perm_orderedInsertBy le a _).trans (ih.cons a)

theorem mem_orderedInsertBy (le : α → α → Bool) (a x : α) (l : List α) :
    x ∈ orderedInsertBy le a l ↔ x = a ∨ x ∈ l := by
  rw [(perm_orderedInsertBy le a l).mem_iff]
  simp

theorem mem_insertionSortBy (le : α → α → Bool) (x : α) (l : List α) :
    x ∈ insertionSortBy le l ↔ x ∈ l :=
  (perm_insertionSortBy le l).mem_iff

theorem pairwise_orderedInsertBy (le : α → α → Bool)
    (htot : ∀ a b, le a b = true ∨ le b a = true)
    (htr : ∀ a b c, le a b = true → le b c = true → le a c = true)
    (a : α) (l : List α) (h : l.Pairwise (fun x y => le x y = true)) :
    (orderedInsertBy le a l).Pairwise (fun x y => le x y = true) := by
  induction l with
  | nil => simp [orderedInsertBy]
  | cons b l ih =>
    rw [List.pairwise_cons] at h
    obtain ⟨hb, hl⟩ := h
    simp only [orderedInsertBy]
    by_cases hab : le a b = true
    · rw [if_pos hab]
      refine List.Pairwise.cons ?_ (List.Pairwise.cons hb hl)
      intro y hy
      rcases List.mem_cons.mp hy with rfl | hy
      · exact hab
      · exact htr a b y hab (hb y hy)
    · rw [if_neg hab]
      refine List.Pairwise.cons ?_ (ih hl)
      intro y hy
      rcases (mem_orderedInsertBy le a y l).mp hy with h' | hy
      · rw [h']
        rcases htot a b with h | h
        · exact absurd h hab
        · exact h
      · exact hb y hy

theorem pairwise_insertionSortBy (le : α → α → Bool)
    (htot : ∀ a b, le a b = true ∨ le b a = true)
    (htr : ∀ a b c, le a b = true → le b c = true → le a c = true)
    (l : List α) :
    (insertionSortBy le l).Pairwise (fun x y => le x y = true) := by
  induction l with
  | nil => simp [insertionSortBy]
  | cons a l ih => exact pairwise_orderedInsertBy le htot htr a _ ih

theorem dueLe_total (a b : Task) : dueLe a b = true ∨ dueLe b a = true := by
  cases ha : a.due_date <;> cases hb : b.due_date <;>
    simp only [dueLe, ha, hb, decide_eq_true_eq] <;> (try simp) <;> omega

theorem dueLe_trans (a b c : Task) :
    dueLe a b = true → dueLe b c = true → dueLe a c = true := by
  cases ha : a.due_date <;> cases hb : b.due_date <;> cases hc : c.due_date <;>
    simp only [dueLe, ha, hb, hc, decide_eq_true_eq] <;> (try simp) <;> (try omega)

theorem loadTaskLe_total (a b : Task) : loadTaskLe a b = true ∨ loadTaskLe b a = true := by
  simp only [loadTaskLe, Bool.or_eq_true, Bool.and_eq_true, decide_eq_true_eq]
  omega

theorem loadTaskLe_trans (a b c : Task) :
    loadTaskLe a b = true → loadTaskLe b c = true → loadTaskLe a c = true := by
  simp only [loadTaskLe, Bool.or_eq_true, Bool.and_eq_true, decide_eq_true_eq]
  omega

theorem loadProjectLe_total (a b : Project) :
    loadProjectLe a b = true ∨ loadProjectLe b a = true := by
  simp only [loadProjectLe, decide_eq_true_eq]
  omega

/-! Characterizations of the classifier buckets. -/

theorem mem_filter_today (tasks : List Task) (today : Int) (t : Task) :
    t ∈ filter_today tasks today ↔
      t ∈ tasks ∧ t.deleted = false ∧ t.status ≠ .completed ∧
        ∃ d, t.due_date = some d ∧ d ≤ today := by
  cases h : t.due_date <;>
    simp [filter_today, List.mem_filter, h, and_assoc]

theorem mem_filter_upcoming (tasks : List Task) (today : Int) (t : Task) :
    t ∈ filter_upcoming tasks today ↔
      t ∈ tasks ∧ t.deleted = false ∧ t.status ≠ .completed ∧
        ∃ d, t.due_date = some d ∧ today < d := by
  cases h : t.due_date <;>
    simp [filter_upcoming, List.mem_filter, h, and_assoc]

theorem mem_filter_review (tasks : List Task) (today : Int) (t : Task) :
    t ∈ filter_review tasks today ↔
      t ∈ tasks ∧ t.deleted = false ∧ t.status ≠ .completed ∧
        ∃ d, t.due_date = some d ∧ d < today := by
  cases h : t.due_date <;>
    simp [filter_review, List.mem_filter, h, and_assoc]

theorem mem_filter_anytime (tasks : List Task) (t : Task) :
    t ∈ filter_anytime tasks ↔
      t ∈ tasks ∧ t.deleted = false ∧ t.status ≠ .completed ∧ t.due_date = none := by
  simp [filter_anytime, List.mem_filter, and_assoc]

theorem mem_filter_completed (tasks : List Task) (t : Task) :
    t ∈ filter_completed tasks ↔
      t ∈ tasks ∧ t.deleted = false ∧ t.status = .completed := by
  simp [filter_completed, List.mem_filter, and_assoc]

/-! ## Claim theorems: classifier and task service -/

/-- Claim C9 (counterexample): two tasks share the due date while their
order indices decrease; the stable sort leaves them in input order, so the
equal-due-date tie is not reordered into ascending `order_index` order. -/
theorem claim_C9_counterexample :
    sort_by_due_date [cxTieA, cxTieB] = [cxTieA, cxTieB] ∧
      cxTieA.due_date = cxTieB.due_date ∧ cxTieB.order_index < cxTieA.order_index := by
  decide

/-- Claim C9 (amended): `sort_by_due_date` permutes its input so that every
dated task precedes every undated task, dated tasks appear in ascending
due-date order, and undated tasks appear in ascending `order_index` order;
ties between equal due dates keep their input order instead of being broken
by `order_index`. -/
theorem claim_C9_sort_by_due_date (l : List Task) :
    List.Perm (sort_by_due_date l) l ∧
      (sort_by_due_date l).Pairwise (fun a b =>
        match a.due_date, b.due_date with
        | some x, some y => x ≤ y
        | some _, none => True
        | none, some _ => False
        | none, none => a.order_index ≤ b.order_index) := by
  constructor
  · exact perm_insertionSortBy dueLe l
  · refine (pairwise_insertionSortBy dueLe dueLe_total dueLe_trans l).imp ?_
    intro a b h
    cases ha : a.due_date <;> cases hb : b.due_date <;>
      simp [dueLe, ha, hb] at h ⊢ <;> (try exact h)

/-- Claim C2: when the remote fetch resolves to an error, reconciliation is
not invoked and the database together with the in-memory task and project
collections is exactly its pre-call state. -/
theorem claim_C2_fetch_error_untouched (st : AppState) (now : Nat)
    (supply : List String) (e : String) :
    (handleGitHubDataReady st now supply (Except.error e)).db = st.db ∧
      (handleGitHubDataReady st now supply (Except.error e)).tasks = st.tasks ∧
      (handleGitHubDataReady st now supply (Except.error e)).projects = st.projects :=
  ⟨rfl, rfl, rfl⟩

/-- Claim C7: with one injected `today`, the Today and Upcoming buckets are
disjoint and Review is contained in Today; a non-deleted Active task due
today is in Today but not Upcoming, and one strictly overdue is in Today
and Review but not in Completed. -/
theorem claim_C7_buckets (tasks : List Task) (today : Int) (t : Task) :
    (t ∈ filter_today tasks today → t ∉ filter_upcoming tasks today) ∧
      (t ∈ filter_review tasks today → t ∈ filter_today tasks today) ∧
      (t ∈ tasks → t.deleted = false → t.status = .active → t.due_date = some today →
        t ∈ filter_today tasks today ∧ t ∉ filter_upcoming tasks today) ∧
      (∀ d, t ∈ tasks → t.deleted = false → t.status = .active → t.due_date = some d →
        d < today →
        t ∈ filter_today tasks today ∧ t ∈ filter_review tasks today ∧
          t ∉ filter_completed tasks) := by
  refine ⟨?_, ?_, ?_, ?_⟩
  · intro ht hu
    rw [mem_filter_today] at ht
    rw [mem_filter_upcoming] at hu
    obtain ⟨-, -, -, d, hd, hle⟩ := ht
    obtain ⟨-, -, -, d', hd', hlt⟩ := hu
    rw [hd] at hd'
    injection hd' with h
    omega
  · intro hr
    rw [mem_filter_review] at hr
    rw [mem_filter_today]
    obtain ⟨hmem, hdel, hst, d, hd, hlt⟩ := hr
    exact ⟨hmem, hdel, hst, d, hd, le_of_lt hlt⟩
  · intro hmem hdel hst hdue
    constructor
    · rw [mem_filter_today]
      exact ⟨hmem, hdel, by simp [hst], today, hdue, le_refl today⟩
    · intro hu
      rw [mem_filter_upcoming] at hu
      obtain ⟨-, -, -, d, hd, hlt⟩ := hu
      rw [hdue] at hd
      injection hd with h
      omega
  · intro d hmem hdel hst hdue hlt
    refine ⟨?_, ?_, ?_⟩
    · rw [mem_filter_today]
      exact ⟨hmem, hdel, by simp [hst], d, hdue, le_of_lt hlt⟩
    · rw [mem_filter_review]
      exact ⟨hmem, hdel, by simp [hst], d, hdue, hlt⟩
    · intro hc
      rw [mem_filter_completed] at hc
      rw [hst] at hc
      exact absurd hc.2.2 (by simp)

/-- Claim C7 witness: an Active task due on day 3 with `today = 3` is in
Today and not in Upcoming. -/
theorem claim_C7_witness :
    w7Task ∈ filter_today [w7Task] 3 ∧ w7Task ∉ filter_upcoming [w7Task] 3 :=
  (claim_C7_buckets [w7Task] 3 w7Task).2.2.1 (by decide) (by decide) (by decide) (by decide)

/-- Claim C8: a task without a due date is never in Today, Upcoming or
Review, and is in Anytime exactly when it is neither soft-deleted nor
Completed. -/
theorem claim_C8_no_due_date (tasks : List Task) (today : Int) (t : Task)
    (hdue : t.due_date = none) :
    t ∉ filter_today tasks today ∧ t ∉ filter_upcoming tasks today ∧
      t ∉ filter_review tasks today ∧
      (t ∈ tasks → (t ∈ filter_anytime tasks ↔ t.deleted = false ∧ t.status ≠ .completed)) := by
  refine ⟨?_, ?_, ?_, ?_⟩
  · intro h
    rw [mem_filter_today] at h
    obtain ⟨-, -, -, d, hd, -⟩ := h
    rw [hdue] at hd
    exact Option.noConfusion hd
  · intro h
    rw [mem_filter_upcoming] at h
    obtain ⟨-, -, -, d, hd, -⟩ := h
    rw [hdue] at hd
    exact Option.noConfusion hd
  · intro h
    rw [mem_filter_review] at h
    obtain ⟨-, -, -, d, hd, -⟩ := h
    rw [hdue] at hd
    exact Option.noConfusion hd
  · intro hmem
    rw [mem_filter_anytime]
    constructor
    · rintro ⟨-, hflag, hst, -⟩
      exact ⟨hflag, hst⟩
    · rintro ⟨hflag, hst⟩
      exact ⟨hmem, hflag, hst, hdue⟩

/-- Claim C8 witness: an undated Active task is outside Today, Upcoming and
Review, and inside Anytime. -/
theorem claim_C8_witness :
    w8Task ∉ filter_today [w8Task] 3 ∧ w8Task ∈ filter_anytime [w8Task] :=
  ⟨(claim_C8_no_due_date [w8Task] 3 w8Task (by decide)).1,
    ((claim_C8_no_due_date [w8Task] 3 w8Task (by decide)).2.2.2 (by decide)).mpr
      (by decide)⟩

/-! ## Lemma layer: the matched-task update -/

theorem processExistingTask_eq (item : GitHubIssue) (proj : Option String)
    (now : Nat) (t : Task) :
    processExistingTask item proj now t =
      if item.state = "closed" ∧ t.status ≠ .completed then
        if t.project_id = none ∧ proj.isSome = true then
          some { t with
                   status := .completed, completed_at := some now,
                   project_id := proj, updated_at := now }
        else
          some { t with
                   status := .completed, completed_at := some now,
                   updated_at := now }
      else if t.project_id = none ∧ proj.isSome = true then
        some { t with project_id := proj, updated_at := now }
      else none := by
  by_cases h1 : item.state = "closed" ∧ t.status ≠ TaskStatus.completed <;>
    by_cases h2 : t.project_id = none ∧ proj.isSome = true <;>
    simp [processExistingTask, h1, h2]

/-- Claim C6: a matched task is written only when the remote flipped to
closed while the local status is not Completed, or the local task lacks a
project while one was resolved; any such write changes at most status,
`completed_at`, `project_id` and `updated_at`, and otherwise no write
happens. -/
theorem claim_C6_match_write (item : GitHubIssue) (proj : Option String)
    (now : Nat) (t : Task) :
    (processExistingTask item proj now t = none ↔
        ¬(item.state = "closed" ∧ t.status ≠ .completed) ∧
          ¬(t.project_id = none ∧ proj.isSome = true)) ∧
      (∀ t', processExistingTask item proj now t = some t' →
        t'.id = t.id ∧ t'.title = t.title ∧ t'.notes = t.notes ∧
          t'.created_at = t.created_at ∧ t'.due_date = t.due_date ∧
          t'.start_date = t.start_date ∧ t'.priority = t.priority ∧
          t'.tags = t.tags ∧ t'.order_index = t.order_index ∧
          t'.deleted = t.deleted ∧ t'.kind = t.kind ∧ t'.size = t.size ∧
          t'.assignee = t.assignee ∧ t'.context_url = t.context_url ∧
          t'.metadata = t.metadata ∧ t'.updated_at = now) := by
  rw [processExistingTask_eq]
  by_cases h1 : item.state = "closed" ∧ t.status ≠ TaskStatus.completed <;>
    by_cases h2 : t.project_id = none ∧ proj.isSome = true <;>
    simp [h1, h2]

/-- Claim C6 witness: the closed remote item against an Active matched task
with a resolved project produces exactly the frame-respecting write
`w6Result`. -/
theorem claim_C6_witness :
    w6Result.id = w6Task.id ∧ w6Result.title = w6Task.title ∧
      w6Result.notes = w6Task.notes ∧ w6Result.created_at = w6Task.created_at ∧
      w6Result.due_date = w6Task.due_date ∧ w6Result.start_date = w6Task.start_date ∧
      w6Result.priority = w6Task.priority ∧ w6Result.tags = w6Task.tags ∧
      w6Result.order_index = w6Task.order_index ∧ w6Result.deleted = w6Task.deleted ∧
      w6Result.kind = w6Task.kind ∧ w6Result.size = w6Task.size ∧
      w6Result.assignee = w6Task.assignee ∧ w6Result.context_url = w6Task.context_url ∧
      w6Result.metadata = w6Task.metadata ∧ w6Result.updated_at = 5 :=
  (claim_C6_match_write cxClosedItem (some "p") 5 w6Task).2 w6Result (by decide)

/-! ## Lemma layer: the Completed/completed_at invariant -/

theorem processExistingTask_invariant (item : GitHubIssue) (proj : Option String)
    (now : Nat) (t t' : Task) (hinv : task_invariant t)
    (h : processExistingTask item proj now t = some t') : task_invariant t' := by
  rw [processExistingTask_eq] at h
  by_cases h1 : item.state = "closed" ∧ t.status ≠ TaskStatus.completed <;>
    by_cases h2 : t.project_id = none ∧ proj.isSome = true
  · rw [if_pos h1, if_pos h2] at h
    injection h with h
    rw [← h]
    simp [task_invariant]
  · rw [if_pos h1, if_neg h2] at h
    injection h with h
    rw [← h]
    simp [task_invariant]
  · rw [if_neg h1, if_pos h2] at h
    injection h with h
    rw [← h]
    simpa [task_invariant] using hinv
  · rw [if_neg h1, if_neg h2] at h
    exact Option.noConfusion h

theorem newTaskFromItem_invariant (id : String) (now : Nat) (item : GitHubIssue)
    (githubType : String) (projectId : Option String) (orderIdx : Int) :
    task_invariant (newTaskFromItem id now item githubType projectId orderIdx) := by
  simp [task_invariant, newTaskFromItem, Task.new]

theorem closeTask_invariant (now : Nat) (t : Task) :
    task_invariant (closeTask now t) := by
  simp [task_invariant, closeTask]

theorem resolveProject_log (now : Nat) (acc : SyncAcc) (item : GitHubIssue) :
    ∀ op ∈ (resolveProject now acc item).2.log,
      op ∈ acc.log ∨ ∃ p, op = WriteOp.insertProject p := by
  unfold resolveProject
  cases h : assocLookup acc.repoMap item.repo_name with
  | some pid =>
      simp only [h]
      exact fun op hop => Or.inl hop
  | none =>
      simp only [h]
      intro op hop
      rcases List.mem_append.mp hop with hmem | hmem
      · exact Or.inl hmem
      · exact Or.inr ⟨_, List.mem_singleton.mp hmem⟩

theorem applyMatch_log (tasks1 : List Task) (now : Nat) (item : GitHubIssue)
    (githubType : String) (pid : Option String) (acc1 : SyncAcc)
    (ht : ∀ t ∈ tasks1, task_invariant t)
    (hacc : ∀ op ∈ acc1.log, TaskWriteOK op) :
    ∀ op ∈ (applyMatch tasks1 now item githubType pid acc1).log, TaskWriteOK op := by
  unfold applyMatch
  cases hf : tasks1.find? (matchesUrl item.html_url) with
  | none =>
      simp only [hf]
      intro op hop
      rcases List.mem_append.mp hop with hmem | hmem
      · exact hacc op hmem
      · rw [List.mem_singleton.mp hmem]
        exact ⟨fun u hu => by
            injection hu with hu
            rw [← hu]
            exact newTaskFromItem_invariant _ _ _ _ _ _,
          fun u hu => by exact absurd hu (by simp)⟩
  | some task =>
      simp only [hf]
      cases hp : processExistingTask item pid now task with
      | none =>
          simp only [hp]
          exact hacc
      | some updated =>
          simp only [hp]
          intro op hop
          rcases List.mem_append.mp hop with hmem | hmem
          · exact hacc op hmem
          · rw [List.mem_singleton.mp hmem]
            have htask : task ∈ tasks1 := List.mem_of_find?_eq_some hf
            refine ⟨fun u hu => by exact absurd hu (by simp), fun u hu => ?_⟩
            injection hu with hu
            rw [← hu]
            exact processExistingTask_invariant item pid now task updated
              (ht task htask) hp

theorem processItem_log (tasks1 : List Task) (now : Nat) (acc : SyncAcc)
    (pair : GitHubIssue × String)
    (ht : ∀ t ∈ tasks1, task_invariant t)
    (hacc : ∀ op ∈ acc.log, TaskWriteOK op) :
    ∀ op ∈ (processItem tasks1 now acc pair).log, TaskWriteOK op := by
  unfold processItem
  refine applyMatch_log tasks1 now pair.1 pair.2 _ _ ht ?_
  intro op hop
  rcases resolveProject_log now acc pair.1 op hop with hmem | ⟨p, hp⟩
  · exact hacc op hmem
  · rw [hp]
    exact ⟨fun u hu => by exact absurd hu (by simp),
      fun u hu => by exact absurd hu (by simp)⟩

theorem foldl_processItem_log (tasks1 : List Task) (now : Nat)
    (items : List (GitHubIssue × String))
    (ht : ∀ t ∈ tasks1, task_invariant t) :
    ∀ acc, (∀ op ∈ acc.log, TaskWriteOK op) →
      ∀ op ∈ (items.foldl (processItem tasks1 now) acc).log, TaskWriteOK op := by
  induction items with
  | nil => intro acc hacc; simpa using hacc
  | cons pair rest ih =>
      intro acc hacc
      rw [List.foldl_cons]
      exact ih _ (processItem_log tasks1 now acc pair ht hacc)

theorem closurePass_log (tasks1 : List Task) (seen : List String) (now : Nat) :
    ∀ acc, (∀ op ∈ acc.log, TaskWriteOK op) →
      ∀ op ∈ (closurePass tasks1 seen now acc).log, TaskWriteOK op := by
  induction tasks1 with
  | nil => intro acc hacc; exact hacc
  | cons t rest ih =>
      intro acc hacc
      have hstep : closurePass (t :: rest) seen now acc =
          closurePass rest seen now (closurePass [t] seen now acc) := rfl
      rw [hstep]
      refine ih _ ?_
      show ∀ op ∈ (closurePass [t] seen now acc).log, TaskWriteOK op
      unfold closurePass
      simp only [List.foldl_cons, List.foldl_nil]
      cases hurl : t.context_url with
      | none =>
          simp only [hurl]
          exact hacc
      | some url =>
          simp only [hurl]
          by_cases hcond : (containsSubstr url ("github.com") &&
              !(decide (url ∈ seen)) && decide (t.status ≠ TaskStatus.completed)) = true
          · rw [if_pos hcond]
            intro op hop
            rcases List.mem_append.mp hop with hmem | hmem
            · exact hacc op hmem
            · rw [List.mem_singleton.mp hmem]
              exact ⟨fun u hu => by exact absurd hu (by simp), fun u hu => by
                injection hu with hu
                rw [← hu]
                exact closeTask_invariant now t⟩
          · rw [if_neg hcond]
            exact hacc

/-- Claim C4: every task produced or mutated by task creation,
`set_status`, `toggle_completed`, or any task write of one reconciliation
pass satisfies `status = Completed ↔ completed_at` populated; `set_status`
always stamps `updated_at`, stamps `completed_at` when entering Completed
and clears it otherwise. -/
theorem claim_C4_invariant (now : Nat) :
    (∀ i title, task_invariant (Task.new i now title)) ∧
      (∀ t st, task_invariant (set_status t st now) ∧
        (set_status t st now).updated_at = now ∧
        (st = .completed → (set_status t st now).completed_at = some now) ∧
        (st ≠ .completed → (set_status t st now).completed_at = none)) ∧
      (∀ t, task_invariant (toggle_completed t now)) ∧
      (∀ db data supply, (∀ t ∈ get_all_tasks db, task_invariant t) →
        ∀ op ∈ (sync_github_to_tasks db data now supply).2, TaskWriteOK op) := by
  refine ⟨?_, ?_, ?_, ?_⟩
  · intro i title
    simp [task_invariant, Task.new]
  · intro t st
    by_cases h : st = TaskStatus.completed <;>
      simp [task_invariant, set_status, h]
  · intro t
    by_cases h : t.status = TaskStatus.completed <;>
      simp [toggle_completed, task_invariant, set_status, h]
  · intro db data supply ht op hop
    exact closurePass_log (get_all_tasks db) _ now _
      (foldl_processItem_log (get_all_tasks db) now (allItems data) ht _
        (by simp [initialAcc])) op hop

/-- Claim C4 witness: the closure pass's write for `w3Task` keeps the
invariant. -/
theorem claim_C4_witness :
    TaskWriteOK (WriteOp.updateTask (closeTask 9 w3Task)) :=
  (claim_C4_invariant 9).2.2.2 w3DB emptyData ["a", "b"] (by decide)
    (WriteOp.updateTask (closeTask 9 w3Task)) (by decide)

/-! ## Lemma layer: shapes of the reconciliation phases -/

theorem processExistingTask_frame (item : GitHubIssue) (proj : Option String)
    (now : Nat) (t t' : Task) (h : processExistingTask item proj now t = some t') :
    t'.id = t.id ∧ t'.context_url = t.context_url ∧ t'.deleted = t.deleted ∧
      t'.order_index = t.order_index ∧ t'.created_at = t.created_at ∧
      (t'.project_id = t.project_id ∨ t'.project_id = proj) := by
  rw [processExistingTask_eq] at h
  by_cases h1 : item.state = "closed" ∧ t.status ≠ TaskStatus.completed <;>
    by_cases h2 : t.project_id = none ∧ proj.isSome = true
  · rw [if_pos h1, if_pos h2] at h
    injection h with h
    rw [← h]
    simp
  · rw [if_pos h1, if_neg h2] at h
    injection h with h
    rw [← h]
    simp
  · rw [if_neg h1, if_pos h2] at h
    injection h with h
    rw [← h]
    simp
  · rw [if_neg h1, if_neg h2] at h
    exact Option.noConfusion h

theorem resolveProject_cases (now : Nat) (acc : SyncAcc) (item : GitHubIssue) :
    (∃ pid, assocLookup acc.repoMap item.repo_name = some pid ∧
        resolveProject now acc item =
          (some pid, { acc with seen := item.html_url :: acc.seen })) ∨
      (assocLookup acc.repoMap item.repo_name = none ∧
        resolveProject now acc item =
          (some (takeFresh acc.supply).1,
            { db := insert_project acc.db
                { Project.new (takeFresh acc.supply).1 now item.repo_name with
                    icon := some githubIcon,
                    order_index := next_project_order_index acc.db }
              repoMap := (item.repo_name, (takeFresh acc.supply).1) :: acc.repoMap
              seen := item.html_url :: acc.seen
              supply := (takeFresh acc.supply).2
              log := acc.log ++
                [WriteOp.insertProject
                  { Project.new (takeFresh acc.supply).1 now item.repo_name with
                      icon := some githubIcon,
                      order_index := next_project_order_index acc.db }] })) := by
  cases h : assocLookup acc.repoMap item.repo_name with
  | some pid =>
      left
      exact ⟨pid, rfl, by simp [resolveProject, h]⟩
  | none =>
      right
      exact ⟨rfl, by simp [resolveProject, h, Project.new]⟩

theorem applyMatch_cases (tasks1 : List Task) (now : Nat) (item : GitHubIssue)
    (githubType : String) (pid : Option String) (acc1 : SyncAcc) :
    (∃ task updated, tasks1.find? (matchesUrl item.html_url) = some task ∧
        processExistingTask item pid now task = some updated ∧
        applyMatch tasks1 now item githubType pid acc1 =
          { acc1 with
              db := update_task acc1.db updated
              log := acc1.log ++ [WriteOp.updateTask updated] }) ∨
      (∃ task, tasks1.find? (matchesUrl item.html_url) = some task ∧
        processExistingTask item pid now task = none ∧
        applyMatch tasks1 now item githubType pid acc1 = acc1) ∨
      (tasks1.find? (matchesUrl item.html_url) = none ∧
        applyMatch tasks1 now item githubType pid acc1 =
          { acc1 with
              db := insert_task acc1.db
                (newTaskFromItem (takeFresh acc1.supply).1 now item githubType pid
                  (next_task_order_index acc1.db))
              supply := (takeFresh acc1.supply).2
              log := acc1.log ++
                [WriteOp.insertTask
                  (newTaskFromItem (takeFresh acc1.supply).1 now item githubType pid
                    (next_task_order_index acc1.db))] }) := by
  cases hf : tasks1.find? (matchesUrl item.html_url) with
  | none =>
      right; right
      exact ⟨rfl, by simp [applyMatch, hf]⟩
  | some task =>
      cases hp : processExistingTask item pid now task with
      | none =>
          right; left
          exact ⟨task, rfl, hp, by simp [applyMatch, hf, hp]⟩
      | some updated =>
          left
          exact ⟨task, updated, rfl, hp, by simp [applyMatch, hf, hp]⟩

/-! ## Lemma layer: row lookups -/

theorem find?_id_map_update (l : List Task) (t : Task) (i : String) (h : t.id ≠ i) :
    (l.map (fun r => if r.id = t.id then t else r)).find? (fun r => decide (r.id = i)) =
      l.find? (fun r => decide (r.id = i)) := by
  induction l with
  | nil => rfl
  | cons r l ih =>
      by_cases hr : r.id = t.id
      · rw [List.map_cons, if_pos hr]
        rw [List.find?_cons_of_neg _ (by simpa using h),
          List.find?_cons_of_neg _ (by simp [hr]; exact fun hc => h (hc ▸ hr ▸ rfl))]
        exact ih
      · rw [List.map_cons, if_neg hr]
        by_cases hi : r.id = i
        · rw [List.find?_cons_of_pos _ (by simpa using hi),
            List.find?_cons_of_pos _ (by simpa using hi)]
        · rw [List.find?_cons_of_neg _ (by simpa using hi),
            List.find?_cons_of_neg _ (by simpa using hi)]
          exact ih

theorem find?_id_map_update_self (l : List Task) (t : Task) :
    (l.map (fun r => if r.id = t.id then t else r)).find? (fun r => decide (r.id = t.id)) =
      (l.find? (fun r => decide (r.id = t.id))).map (fun _ => t) := by
  induction l with
  | nil => rfl
  | cons r l ih =>
      by_cases hr : r.id = t.id
      · rw [List.map_cons, if_pos hr]
        rw [List.find?_cons_of_pos _ (by simp),
          List.find?_cons_of_pos _ (by simpa using hr)]
        rfl
      · rw [List.map_cons, if_neg hr]
        rw [List.find?_cons_of_neg _ (by simpa using hr),
          List.find?_cons_of_neg _ (by simpa using hr)]
        exact ih

theorem rowById_update_of_ne (db : DB) (t : Task) (i : String) (h : t.id ≠ i) :
    rowById (update_task db t) i = rowById db i :=
  find?_id_map_update db.tasks t i h

theorem rowById_update_self (db : DB) (t : Task) :
    rowById (update_task db t) t.id = (rowById db t.id).map (fun _ => t) :=
  find?_id_map_update_self db.tasks t

theorem rowById_insert_project (db : DB) (p : Project) (i : String) :
    rowById (insert_project db p) i = rowById db i := rfl

theorem find?_append_left (l₁ l₂ : List α) (p : α → Bool)
    (h : (l₁.find? p).isSome = true) : (l₁ ++ l₂).find? p = l₁.find? p := by
  induction l₁ with
  | nil => simp at h
  | cons a l ih =>
      by_cases ha : p a = true
      · rw [List.cons_append, List.find?_cons_of_pos _ ha, List.find?_cons_of_pos _ ha]
      · rw [List.find?_cons_of_neg _ ha] at h
        rw [List.cons_append, List.find?_cons_of_neg _ ha, List.find?_cons_of_neg _ ha]
        exact ih h

theorem rowById_insert_task_of_isSome (db : DB) (t : Task) (i : String)
    (h : (rowById db i).isSome = true) :
    rowById (insert_task db t) i = rowById db i :=
  find?_append_left db.tasks [t] _ h

theorem find?_id_of_mem_nodup (l : List Task) (t : Task)
    (hids : (l.map Task.id).Nodup) (hmem : t ∈ l) :
    l.find? (fun r => decide (r.id = t.id)) = some t := by
  induction l with
  | nil => exact absurd hmem (List.not_mem_nil t)
  | cons r l ih =>
      rw [List.map_cons, List.nodup_cons] at hids
      rcases List.mem_cons.mp hmem with rfl | hmem
      · rw [List.find?_cons_of_pos _ (by simp)]
      · by_cases hr : r.id = t.id
        · exact absurd (hr ▸ List.mem_map_of_mem Task.id hmem) hids.1
        · rw [List.find?_cons_of_neg _ (by simpa using hr)]
          exact ih hids.2 hmem

theorem rowById_of_mem_nodup (db : DB) (t : Task)
    (hids : (db.tasks.map Task.id).Nodup) (hmem : t ∈ db.tasks) :
    rowById db t.id = some t :=
  find?_id_of_mem_nodup db.tasks t hids hmem

/-! ## Lemma layer: loaded snapshots -/

theorem mem_get_all_tasks (db : DB) (t : Task) :
    t ∈ get_all_tasks db ↔ t ∈ db.tasks ∧ t.deleted = false := by
  rw [get_all_tasks, mem_insertionSortBy, List.mem_filter]
  simp

theorem mem_get_all_projects (db : DB) (p : Project) :
    p ∈ get_all_projects db ↔ p ∈ db.projects ∧ p.deleted = false := by
  rw [get_all_projects, mem_insertionSortBy, List.mem_filter]
  simp

/-! ## Lemma layer: effects of the item loop on seen set, supply and rows -/

theorem applyMatch_seen (tasks1 : List Task) (now : Nat) (item : GitHubIssue)
    (githubType : String) (pid : Option String) (acc1 : SyncAcc) :
    (applyMatch tasks1 now item githubType pid acc1).seen = acc1.seen := by
  rcases applyMatch_cases tasks1 now item githubType pid acc1 with
    ⟨task, updated, hf, hp, heq⟩ | ⟨task, hf, hp, heq⟩ | ⟨hf, heq⟩ <;> rw [heq]

theorem processItem_seen (tasks1 : List Task) (now : Nat) (acc : SyncAcc)
    (pair : GitHubIssue × String) :
    (processItem tasks1 now acc pair).seen = pair.1.html_url :: acc.seen := by
  unfold processItem
  rw [applyMatch_seen]
  rcases resolveProject_cases now acc pair.1 with ⟨pid, hl, heq⟩ | ⟨hl, heq⟩ <;> rw [heq]

theorem foldl_processItem_seen (tasks1 : List Task) (now : Nat)
    (items : List (GitHubIssue × String)) :
    ∀ (acc : SyncAcc) (u : String),
      (u ∈ (items.foldl (processItem tasks1 now) acc).seen ↔
        (∃ pair ∈ items, pair.1.html_url = u) ∨ u ∈ acc.seen) := by
  induction items with
  | nil => intro acc u; simp
  | cons pair rest ih =>
      intro acc u
      rw [List.foldl_cons, ih, processItem_seen]
      constructor
      · rintro (⟨p, hp, hu⟩ | h)
        · exact Or.inl ⟨p, List.mem_cons_of_mem pair hp, hu⟩
        · rcases List.mem_cons.mp h with h | h
          · exact Or.inl ⟨pair, List.mem_cons_self pair rest, h.symm⟩
          · exact Or.inr h
      · rintro (⟨p, hp, hu⟩ | h)
        · rcases List.mem_cons.mp hp with rfl | hp
          · exact Or.inr (by rw [← hu]; exact List.mem_cons_self _ _)
          · exact Or.inl ⟨p, hp, hu⟩
        · exact Or.inr (List.mem_cons_of_mem _ h)

theorem itemsPhase_seen (db : DB) (data : GitHubData) (now : Nat)
    (supply : List String) (u : String) :
    u ∈ (itemsPhase db data now supply).seen ↔ u ∈ itemUrls data := by
  rw [itemsPhase, foldl_processItem_seen]
  constructor
  · rintro (⟨p, hp, hu⟩ | h)
    · rw [itemUrls, List.mem_map]
      exact ⟨p, hp, hu⟩
    · exact absurd h (List.not_mem_nil u)
  · intro h
    rw [itemUrls, List.mem_map] at h
    obtain ⟨p, hp, hu⟩ := h
    exact Or.inl ⟨p, hp, hu⟩

theorem takeFresh_sfx (l : List String) : List.IsSuffix (takeFresh l).2 l := by
  cases l with
  | nil => exact List.suffix_refl []
  | cons x xs => exact List.suffix_cons x xs

theorem takeFresh_head (l : List String) :
    (takeFresh l).1 = "fresh" ∨ (takeFresh l).1 ∈ l := by
  cases l with
  | nil => exact Or.inl rfl
  | cons x xs => exact Or.inr (List.mem_cons_self x xs)

theorem resolveProject_supply_sfx (now : Nat) (acc : SyncAcc) (item : GitHubIssue) :
    List.IsSuffix (resolveProject now acc item).2.supply acc.supply := by
  rcases resolveProject_cases now acc item with ⟨pid, hl, heq⟩ | ⟨hl, heq⟩ <;> rw [heq] <;>
    exact takeFresh_sfx _

theorem applyMatch_supply_sfx (tasks1 : List Task) (now : Nat) (item : GitHubIssue)
    (githubType : String) (pid : Option String) (acc1 : SyncAcc) :
    List.IsSuffix (applyMatch tasks1 now item githubType pid acc1).supply acc1.supply := by
  rcases applyMatch_cases tasks1 now item githubType pid acc1 with
    ⟨task, updated, hf, hp, heq⟩ | ⟨task, hf, hp, heq⟩ | ⟨hf, heq⟩ <;> rw [heq] <;>
    exact takeFresh_sfx _

theorem processItem_supply_sfx (tasks1 : List Task) (now : Nat) (acc : SyncAcc)
    (pair : GitHubIssue × String) :
    List.IsSuffix (processItem tasks1 now acc pair).supply acc.supply := by
  unfold processItem
  exact (applyMatch_supply_sfx tasks1 now pair.1 pair.2 _ _).trans
    (resolveProject_supply_sfx now acc pair.1)

theorem foldl_processItem_supply_sfx (tasks1 : List Task) (now : Nat)
    (items : List (GitHubIssue × String)) :
    ∀ acc, List.IsSuffix ((items.foldl (processItem tasks1 now) acc).supply) acc.supply := by
  induction items with
  | nil => intro acc; exact List.suffix_refl _
  | cons pair rest ih =>
      intro acc
      rw [List.foldl_cons]
      exact (ih _).trans (processItem_supply_sfx tasks1 now acc pair)

theorem rowById_eq_of_tasks_eq (db1 db2 : DB) (h : db1.tasks = db2.tasks) (i : String) :
    rowById db1 i = rowById db2 i := by
  unfold rowById
  rw [h]

theorem resolveProject_db_tasks (now : Nat) (acc : SyncAcc) (item : GitHubIssue) :
    (resolveProject now acc item).2.db.tasks = acc.db.tasks := by
  rcases resolveProject_cases now acc item with ⟨pid, hl, heq⟩ | ⟨hl, heq⟩ <;> rw [heq] <;>
    rfl

theorem matchesUrl_context (u : String) (t : Task) (h : matchesUrl u t = true) :
    t.context_url = some u := by
  simpa [matchesUrl] using h

theorem processItem_rowById (tasks1 : List Task) (now : Nat) (acc : SyncAcc)
    (pair : GitHubIssue × String) (i : String)
    (hno : ∀ task ∈ tasks1, task.id = i → task.context_url ≠ some pair.1.html_url)
    (hsome : (rowById acc.db i).isSome = true) :
    rowById (processItem tasks1 now acc pair).db i = rowById acc.db i := by
  unfold processItem
  have h1 : rowById (resolveProject now acc pair.1).2.db i = rowById acc.db i :=
    rowById_eq_of_tasks_eq _ _ (resolveProject_db_tasks now acc pair.1) i
  rcases applyMatch_cases tasks1 now pair.1 pair.2 (resolveProject now acc pair.1).1
      (resolveProject now acc pair.1).2 with
    ⟨task, updated, hf, hp, heq⟩ | ⟨task, hf, hp, heq⟩ | ⟨hf, heq⟩ <;> rw [heq]
  · have hid : updated.id = task.id := (processExistingTask_frame _ _ _ _ _ hp).1
    have hmem : task ∈ tasks1 := List.mem_of_find?_eq_some hf
    have hurl : task.context_url = some pair.1.html_url :=
      matchesUrl_context _ _ (List.find?_some hf)
    have hne : updated.id ≠ i := by
      rw [hid]
      intro hc
      exact hno task hmem hc hurl
    rw [show ({ (resolveProject now acc pair.1).2 with
        db := update_task (resolveProject now acc pair.1).2.db updated,
        log := (resolveProject now acc pair.1).2.log ++ [WriteOp.updateTask updated] } :
        SyncAcc).db = update_task (resolveProject now acc pair.1).2.db updated from rfl]
    rw [rowById_update_of_ne _ _ _ hne]
    exact h1
  · exact h1
  · rw [show ({ (resolveProject now acc pair.1).2 with
        db := insert_task (resolveProject now acc pair.1).2.db _,
        supply := (takeFresh (resolveProject now acc pair.1).2.supply).2,
        log := (resolveProject now acc pair.1).2.log ++ [WriteOp.insertTask _] } :
        SyncAcc).db = insert_task (resolveProject now acc pair.1).2.db
          (newTaskFromItem (takeFresh (resolveProject now acc pair.1).2.supply).1 now
            pair.1 pair.2 (resolveProject now acc pair.1).1
            (next_task_order_index (resolveProject now acc pair.1).2.db)) from rfl]
    rw [rowById_insert_task_of_isSome _ _ _ (by rw [h1]; exact hsome)]
    exact h1

theorem foldl_processItem_rowById (tasks1 : List Task) (now : Nat)
    (items : List (GitHubIssue × String)) (i : String)
    (hno : ∀ pair ∈ items, ∀ task ∈ tasks1, task.id = i →
      task.context_url ≠ some pair.1.html_url) :
    ∀ acc, (rowById acc.db i).isSome = true →
      rowById ((items.foldl (processItem tasks1 now) acc).db) i = rowById acc.db i := by
  induction items with
  | nil => intro acc _; rfl
  | cons pair rest ih =>
      intro acc h
      rw [List.foldl_cons]
      have hstep := processItem_rowById tasks1 now acc pair i
        (fun task hm hid => hno pair (List.mem_cons_self pair rest) task hm hid) h
      rw [ih (fun q hq task hm hid => hno q (List.mem_cons_of_mem pair hq) task hm hid) _
        (by rw [hstep]; exact h), hstep]

theorem closurePass_append (l1 l2 : List Task) (seen : List String) (now : Nat)
    (acc : SyncAcc) :
    closurePass (l1 ++ l2) seen now acc =
      closurePass l2 seen now (closurePass l1 seen now acc) := by
  unfold closurePass
  rw [List.foldl_append]

theorem closurePass_rowById (seen : List String) (now : Nat) (i : String) :
    ∀ (l : List Task), (∀ task ∈ l, task.id ≠ i) →
      ∀ acc, rowById (closurePass l seen now acc).db i = rowById acc.db i := by
  intro l
  induction l with
  | nil => intro _ acc; rfl
  | cons t rest ih =>
      intro hno acc
      have hstep : closurePass (t :: rest) seen now acc =
          closurePass rest seen now (closurePass [t] seen now acc) := rfl
      rw [hstep, ih (fun task h => hno task (List.mem_cons_of_mem t h)) _]
      show rowById (closurePass [t] seen now acc).db i = rowById acc.db i
      unfold closurePass
      simp only [List.foldl_cons, List.foldl_nil]
      cases hurl : t.context_url with
      | none =>
          simp only [hurl]
      | some url =>
          simp only [hurl]
          by_cases hcond : (containsSubstr url ("github.com") &&
              !(decide (url ∈ seen)) && decide (t.status ≠ TaskStatus.completed)) = true
          · rw [if_pos hcond]
            exact rowById_update_of_ne _ _ _ (by
              show (closeTask now t).id ≠ i
              simpa [closeTask] using hno t (List.mem_cons_self t rest))
          · rw [if_neg hcond]

theorem closurePass_single_hit (seen : List String) (now : Nat) (t : Task)
    (u : String) (acc : SyncAcc) (hurl : t.context_url = some u)
    (hgh : containsSubstr u ("github.com") = true) (hseen : u ∉ seen)
    (hst : t.status ≠ .completed) :
    closurePass [t] seen now acc =
      { acc with
          db := update_task acc.db (closeTask now t)
          log := acc.log ++ [WriteOp.updateTask (closeTask now t)] } := by
  unfold closurePass
  simp only [List.foldl_cons, List.foldl_nil, hurl]
  rw [if_pos (by simp [hgh, hseen, hst])]

theorem get_all_tasks_ids_nodup (db : DB) (hids : (db.tasks.map Task.id).Nodup) :
    ((get_all_tasks db).map Task.id).Nodup := by
  have hp := perm_insertionSortBy loadTaskLe (db.tasks.filter (fun t => !t.deleted))
  have hsub : ((db.tasks.filter (fun t => !t.deleted)).map Task.id).Nodup :=
    List.Nodup.sublist (List.Sublist.map Task.id (List.filter_sublist db.tasks)) hids
  exact ((hp.map Task.id).nodup_iff).mpr hsub

theorem exists_split_of_mem_nodup (l : List Task) (t : Task)
    (hids : (l.map Task.id).Nodup) (hmem : t ∈ l) :
    ∃ l1 l2, l = l1 ++ t :: l2 ∧ (∀ x ∈ l1, x.id ≠ t.id) ∧
      (∀ x ∈ l2, x.id ≠ t.id) := by
  obtain ⟨l1, l2, rfl⟩ := List.append_of_mem hmem
  refine ⟨l1, l2, rfl, ?_, ?_⟩
  · intro x hx hc
    rw [List.map_append, List.nodup_append] at hids
    exact hids.2.2 (hc ▸ List.mem_map_of_mem Task.id hx)
      (by rw [List.map_cons]; exact List.mem_cons_self _ _)
  · intro x hx hc
    rw [List.map_append, List.map_cons, List.nodup_append] at hids
    rw [List.nodup_cons] at hids
    exact hids.2.1.1 (hc ▸ List.mem_map_of_mem Task.id hx)

theorem processItem_preserves_row (tasks1 : List Task) (now : Nat) (acc : SyncAcc)
    (pair : GitHubIssue × String) (nt : Task) (hnt : nt ∈ acc.db.tasks)
    (hdisj : ∀ task ∈ tasks1, task.id ≠ nt.id) :
    nt ∈ (processItem tasks1 now acc pair).db.tasks := by
  unfold processItem
  have h1 : nt ∈ (resolveProject now acc pair.1).2.db.tasks := by
    rw [resolveProject_db_tasks]
    exact hnt
  rcases applyMatch_cases tasks1 now pair.1 pair.2 (resolveProject now acc pair.1).1
      (resolveProject now acc pair.1).2 with
    ⟨task, updated, hf, hp, heq⟩ | ⟨task, hf, hp, heq⟩ | ⟨hf, heq⟩ <;> rw [heq]
  · have hid : updated.id = task.id := (processExistingTask_frame _ _ _ _ _ hp).1
    have hne : ¬(nt.id = updated.id) := by
      rw [hid]
      intro hc
      exact hdisj task (List.mem_of_find?_eq_some hf) hc.symm
    have hmap := List.mem_map_of_mem
      (fun r => if r.id = updated.id then updated else r) h1
    simp only [if_neg hne] at hmap
    exact hmap
  · exact h1
  · exact List.mem_append_left _ h1

theorem foldl_processItem_preserves_row (tasks1 : List Task) (now : Nat)
    (items : List (GitHubIssue × String)) (nt : Task)
    (hdisj : ∀ task ∈ tasks1, task.id ≠ nt.id) :
    ∀ acc, nt ∈ acc.db.tasks →
      nt ∈ ((items.foldl (processItem tasks1 now) acc).db).tasks := by
  induction items with
  | nil => intro acc h; exact h
  | cons pair rest ih =>
      intro acc h
      rw [List.foldl_cons]
      exact ih _ (processItem_preserves_row tasks1 now acc pair nt h hdisj)

theorem closurePass_preserves_row (seen : List String) (now : Nat) (nt : Task) :
    ∀ (l : List Task), (∀ task ∈ l, task.id ≠ nt.id) →
      ∀ acc, nt ∈ acc.db.tasks → nt ∈ (closurePass l seen now acc).db.tasks := by
  intro l
  induction l with
  | nil => intro _ acc h; exact h
  | cons t rest ih =>
      intro hno acc h
      have hstep : closurePass (t :: rest) seen now acc =
          closurePass rest seen now (closurePass [t] seen now acc) := rfl
      rw [hstep]
      refine ih (fun task hm => hno task (List.mem_cons_of_mem t hm)) _ ?_
      show nt ∈ (closurePass [t] seen now acc).db.tasks
      unfold closurePass
      simp only [List.foldl_cons, List.foldl_nil]
      cases hurl : t.context_url with
      | none => exact h
      | some url =>
          simp only
          by_cases hcond : (containsSubstr url ("github.com") &&
              !(decide (url ∈ seen)) && decide (t.status ≠ TaskStatus.completed)) = true
          · rw [if_pos hcond]
            have hne : ¬(nt.id = (closeTask now t).id) := by
              show ¬(nt.id = t.id)
              intro hc
              exact hno t (List.mem_cons_self t rest) hc.symm
            have hmap := List.mem_map_of_mem
              (fun r => if r.id = (closeTask now t).id then closeTask now t else r) h
            simp only [if_neg hne] at hmap
            exact hmap
          · rw [if_neg hcond]
            exact h

theorem processItem_creates (tasks1 : List Task) (now : Nat) (acc : SyncAcc)
    (pair : GitHubIssue × String)
    (hfindnone : tasks1.find? (matchesUrl pair.1.html_url) = none) :
    ∃ nt ∈ (processItem tasks1 now acc pair).db.tasks,
      nt.context_url = some pair.1.html_url ∧ nt.deleted = false ∧
        (nt.id = "fresh" ∨ nt.id ∈ acc.supply) := by
  unfold processItem
  rcases applyMatch_cases tasks1 now pair.1 pair.2 (resolveProject now acc pair.1).1
      (resolveProject now acc pair.1).2 with
    ⟨task, updated, hf, hp, heq⟩ | ⟨task, hf, hp, heq⟩ | ⟨hf, heq⟩
  · rw [hfindnone] at hf
    exact Option.noConfusion hf
  · rw [hfindnone] at hf
    exact Option.noConfusion hf
  · rw [heq]
    refine ⟨newTaskFromItem (takeFresh (resolveProject now acc pair.1).2.supply).1 now
      pair.1 pair.2 (resolveProject now acc pair.1).1
      (next_task_order_index (resolveProject now acc pair.1).2.db), ?_, ?_, ?_, ?_⟩
    · exact List.mem_append_right _ (List.mem_singleton_self _)
    · simp [newTaskFromItem, Task.new]
    · simp [newTaskFromItem, Task.new]
    · rcases takeFresh_head (resolveProject now acc pair.1).2.supply with h | h
      · exact Or.inl h
      · exact Or.inr ((resolveProject_supply_sfx now acc pair.1).subset h)

/-- Claim C3: a non-deleted local task whose `context_url` contains
`github.com` and is absent from the snapshot's seen URLs, and whose status
is not yet Completed, is promoted by one reconciliation pass: its stored
row becomes `closeTask now t`, whose status is Completed with a populated
`completed_at`. -/
theorem claim_C3_closure_detection (db : DB) (data : GitHubData) (now : Nat)
    (supply : List String) (t : Task) (u : String)
    (hids : (db.tasks.map Task.id).Nodup)
    (hmem : t ∈ get_all_tasks db)
    (hturl : t.context_url = some u)
    (hgh : containsSubstr u ("github.com") = true)
    (hu : u ∉ itemUrls data)
    (hst : t.status ≠ .completed) :
    rowById (sync_github_to_tasks db data now supply).1 t.id =
        some (closeTask now t) ∧
      (closeTask now t).status = .completed ∧
      ((closeTask now t).completed_at).isSome = true := by
  refine ⟨?_, by simp [closeTask], by simp [closeTask]⟩
  have hsync : (sync_github_to_tasks db data now supply).1 =
      (closurePass (get_all_tasks db) (itemsPhase db data now supply).seen now
        (itemsPhase db data now supply)).db := rfl
  rw [hsync]
  obtain ⟨htm, hdel⟩ := (mem_get_all_tasks db t).mp hmem
  have hrow0 : rowById db t.id = some t := rowById_of_mem_nodup db t hids htm
  have hno : ∀ pair ∈ allItems data, ∀ task ∈ get_all_tasks db, task.id = t.id →
      task.context_url ≠ some pair.1.html_url := by
    intro pair hp task hmt hid hurl
    have htask : task ∈ db.tasks := ((mem_get_all_tasks db task).mp hmt).1
    have heqt : task = t := List.inj_on_of_nodup_map hids htask htm hid
    rw [heqt, hturl] at hurl
    injection hurl with hurl
    apply hu
    rw [hurl]
    exact List.mem_map_of_mem (fun p => p.1.html_url) hp
  have hitems : rowById (itemsPhase db data now supply).db t.id = some t := by
    rw [itemsPhase,
      foldl_processItem_rowById (get_all_tasks db) now (allItems data) t.id hno
        (initialAcc db supply) (by rw [show (initialAcc db supply).db = db from rfl, hrow0]; rfl)]
    rw [show (initialAcc db supply).db = db from rfl]
    exact hrow0
  have hnodup1 : ((get_all_tasks db).map Task.id).Nodup := get_all_tasks_ids_nodup db hids
  obtain ⟨l1, l2, hsplit, h1, h2⟩ :=
    exists_split_of_mem_nodup (get_all_tasks db) t hnodup1 hmem
  rw [hsplit, show (l1 ++ t :: l2 : List Task) = l1 ++ ([t] ++ l2) from by simp,
    closurePass_append, closurePass_append]
  have hseen : u ∉ (itemsPhase db data now supply).seen :=
    fun hc => hu ((itemsPhase_seen db data now supply u).mp hc)
  have hA : rowById (closurePass l1 (itemsPhase db data now supply).seen now
      (itemsPhase db data now supply)).db t.id = some t := by
    rw [closurePass_rowById _ now t.id l1 h1 _]
    exact hitems
  rw [closurePass_rowById _ now t.id l2 h2 _]
  rw [closurePass_single_hit _ now t u _ hturl hgh hseen hst]
  show rowById (update_task (closurePass l1 (itemsPhase db data now supply).seen now
      (itemsPhase db data now supply)).db (closeTask now t)) t.id =
    some (closeTask now t)
  have hup := rowById_update_self (closurePass l1 (itemsPhase db data now supply).seen now
      (itemsPhase db data now supply)).db (closeTask now t)
  rw [show (closeTask now t).id = t.id from rfl] at hup
  rw [hup, hA]
  rfl

/-- Claim C3 witness: the Active GitHub-linked task `w3Task` is promoted to
Completed by a pass over the empty snapshot. -/
theorem claim_C3_witness :
    rowById (sync_github_to_tasks w3DB emptyData 9 []).1 w3Task.id =
        some (closeTask 9 w3Task) ∧
      (closeTask 9 w3Task).status = .completed ∧
      ((closeTask 9 w3Task).completed_at).isSome = true :=
  claim_C3_closure_detection w3DB emptyData 9 [] w3Task
    "https://github.com/o/r/issues/9" (by decide) (by decide) (by decide)
    (by decide) (by decide) (by decide)

/-- Claim C10: the `context_url` match only sees non-deleted tasks, so a
remote item whose URL belongs only to a soft-deleted local task creates a
brand-new task with that URL (with an identifier fresh to the store) and
leaves the deleted row exactly as it was. -/
theorem claim_C10_deleted_not_resurrected (db : DB) (data : GitHubData)
    (now : Nat) (supply : List String) (t : Task) (u : String)
    (hids : (db.tasks.map Task.id).Nodup)
    (hfresh : ∀ r ∈ db.tasks, r.id ≠ "fresh" ∧ r.id ∉ supply)
    (htm : t ∈ db.tasks) (hdel : t.deleted = true) (hturl : t.context_url = some u)
    (hnomatch : ∀ r ∈ db.tasks, r.deleted = false → r.context_url ≠ some u)
    (hitem : ∃ pair ∈ allItems data, pair.1.html_url = u) :
    (∃ nt ∈ (sync_github_to_tasks db data now supply).1.tasks,
        nt.context_url = some u ∧ nt.deleted = false ∧
          nt.id ∉ db.tasks.map Task.id) ∧
      rowById (sync_github_to_tasks db data now supply).1 t.id = some t := by
  have hsync : (sync_github_to_tasks db data now supply).1 =
      (closurePass (get_all_tasks db) (itemsPhase db data now supply).seen now
        (itemsPhase db data now supply)).db := rfl
  have hload_ne : ∀ task ∈ get_all_tasks db, task.id ≠ t.id := by
    intro task hmt hc
    have hmem := (mem_get_all_tasks db task).mp hmt
    have heqt : task = t := List.inj_on_of_nodup_map hids hmem.1 htm hc
    rw [heqt] at hmem
    rw [hdel] at hmem
    exact Bool.noConfusion hmem.2
  constructor
  · obtain ⟨pr, hpr, hpru⟩ := hitem
    obtain ⟨i1, i2, hsplit⟩ := List.append_of_mem hpr
    have hfind : (get_all_tasks db).find? (matchesUrl pr.1.html_url) = none := by
      rw [List.find?_eq_none]
      intro task hmt hmatch
      have hmem := (mem_get_all_tasks db task).mp hmt
      have hctx := matchesUrl_context _ _ hmatch
      rw [hpru] at hctx
      exact hnomatch task hmem.1 hmem.2 hctx
    have hfoldsplit : itemsPhase db data now supply =
        i2.foldl (processItem (get_all_tasks db) now)
          (processItem (get_all_tasks db) now
            (i1.foldl (processItem (get_all_tasks db) now) (initialAcc db supply)) pr) := by
      rw [itemsPhase, hsplit, List.foldl_append, List.foldl_cons]
    obtain ⟨nt, hntmem, hnturl, hntdel, hntid⟩ :=
      processItem_creates (get_all_tasks db) now
        (i1.foldl (processItem (get_all_tasks db) now) (initialAcc db supply)) pr hfind
    have hntid' : nt.id = "fresh" ∨ nt.id ∈ supply := by
      rcases hntid with h | h
      · exact Or.inl h
      · refine Or.inr ?_
        have hsfx := foldl_processItem_supply_sfx (get_all_tasks db) now i1
          (initialAcc db supply)
        exact hsfx.subset h
    have hdisj : ∀ task ∈ get_all_tasks db, task.id ≠ nt.id := by
      intro task hmt hc
      have hmem := (mem_get_all_tasks db task).mp hmt
      rcases hntid' with h | h
      · exact (hfresh task hmem.1).1 (hc.trans h)
      · exact (hfresh task hmem.1).2 (hc ▸ h)
    refine ⟨nt, ?_, by rw [hnturl, hpru], hntdel, ?_⟩
    · rw [hsync]
      refine closurePass_preserves_row _ now nt (get_all_tasks db) hdisj _ ?_
      rw [hfoldsplit]
      exact foldl_processItem_preserves_row (get_all_tasks db) now i2 nt hdisj _ hntmem
    · intro hc
      obtain ⟨r, hr, hrid⟩ := List.mem_map.mp hc
      rcases hntid' with h | h
      · exact (hfresh r hr).1 (hrid.trans h)
      · exact (hfresh r hr).2 (hrid ▸ h)
  · rw [hsync]
    have hrow0 : rowById db t.id = some t := rowById_of_mem_nodup db t hids htm
    rw [closurePass_rowById _ now t.id (get_all_tasks db) hload_ne _]
    rw [itemsPhase,
      foldl_processItem_rowById (get_all_tasks db) now (allItems data) t.id
        (fun pair _ task hmt hid _ => hload_ne task hmt hid)
        (initialAcc db supply)
        (by rw [show (initialAcc db supply).db = db from rfl, hrow0]; rfl)]
    rw [show (initialAcc db supply).db = db from rfl]
    exact hrow0

/-- Claim C10 witness: the open item whose URL matches only the
soft-deleted `w10Task` creates a brand-new task and leaves the deleted row
unchanged. -/
theorem claim_C10_witness :
    (∃ nt ∈ (sync_github_to_tasks w10DB w10Data 4 ["p1", "t1"]).1.tasks,
        nt.context_url = some "https://github.com/o/r/issues/5" ∧
          nt.deleted = false ∧ nt.id ∉ w10DB.tasks.map Task.id) ∧
      rowById (sync_github_to_tasks w10DB w10Data 4 ["p1", "t1"]).1 w10Task.id =
        some w10Task :=
  claim_C10_deleted_not_resurrected w10DB w10Data 4 ["p1", "t1"] w10Task
    "https://github.com/o/r/issues/5" (by decide) (by decide) (by decide)
    (by decide) (by decide) (by decide)
    ⟨(w10Item, "issue"), by decide, by decide⟩

/-! ## Claim theorems: concrete counterexamples for C1 and C5 -/

/-- Claim C1 (counterexample): a snapshot containing an already-closed item
with no matching local task is not idempotent — the first pass creates the
task as Inbox, the second pass immediately writes it again, promoting it to
Completed. -/
theorem claim_C1_counterexample :
    (sync_github_to_tasks
        (sync_github_to_tasks emptyDB cxClosedData 100 ["a", "b", "c", "d"]).1
        cxClosedData 200 ["e", "f"]).2 ≠ [] ∧
      get_all_tasks
          (sync_github_to_tasks
            (sync_github_to_tasks emptyDB cxClosedData 100 ["a", "b", "c", "d"]).1
            cxClosedData 200 ["e", "f"]).1 ≠
        get_all_tasks (sync_github_to_tasks emptyDB cxClosedData 100 ["a", "b", "c", "d"]).1 := by
  decide

/-- Claim C5 (counterexample): two open items share the unknown container
`"o/r"`; the pass creates exactly one project for it (id `"np"`), but the
first item matches the existing task `cx5Task`, which already belongs to
project `"p0"` and keeps it — so not every such item is attached to the new
project. -/
theorem claim_C5_counterexample :
    ((get_all_projects (sync_github_to_tasks cx5DB cx5Data 50 ["np", "nt"]).1).filter
        (fun p => decide (p.name = "o/r"))).map Project.id = ["np"] ∧
      rowById (sync_github_to_tasks cx5DB cx5Data 50 ["np", "nt"]).1 "t5" =
        some cx5Task ∧
      cx5Task.project_id = some "p0" := by
  decide

/-! ## Lemma layer: the project index during one pass (claim C5) -/

theorem assocLookup_cons_ne (k v n : String) (m : List (String × String))
    (h : k ≠ n) : assocLookup ((k, v) :: m) n = assocLookup m n := by
  simp [assocLookup, h]

theorem assocLookup_cons_self (k v : String) (m : List (String × String)) :
    assocLookup ((k, v) :: m) k = some v := by
  simp [assocLookup]

theorem assocLookup_buildMap_none (ps : List Project) (c : String) :
    ∀ m₀, (∀ p ∈ ps, p.name ≠ c) → assocLookup m₀ c = none →
      assocLookup (ps.foldl (fun m p => (p.name, p.id) :: m) m₀) c = none := by
  induction ps with
  | nil => intro m₀ _ h; exact h
  | cons p ps ih =>
      intro m₀ hps h
      rw [List.foldl_cons]
      refine ih _ (fun q hq => hps q (List.mem_cons_of_mem p hq)) ?_
      rw [assocLookup_cons_ne _ _ _ _ (hps p (List.mem_cons_self p ps))]
      exact h

theorem mem_metadata_newTask (id : String) (now : Nat) (item : GitHubIssue)
    (githubType : String) (pid : Option String) (idx : Int) (c : String) :
    ("github_repo", c) ∈ (newTaskFromItem id now item githubType pid idx).metadata ↔
      item.repo_name = c := by
  have h1 : ¬("github_repo" = "github_id") := by decide
  have h2 : ¬("github_repo" = "github_type") := by decide
  simp [newTaskFromItem, Task.new, Prod.ext_iff, h1, h2, eq_comm]

theorem newTaskFromItem_project (id : String) (now : Nat) (item : GitHubIssue)
    (githubType : String) (pid : Option String) (idx : Int) :
    (newTaskFromItem id now item githubType pid idx).project_id = pid := by
  simp [newTaskFromItem, Task.new]

theorem resolveProject_right (c pc : String) (now : Nat) (acc : SyncAcc)
    (item : GitHubIssue) (h : RightInv c pc acc) :
    RightInv c pc (resolveProject now acc item).2 ∧
      (item.repo_name = c → (resolveProject now acc item).1 = some pc) := by
  obtain ⟨hmap, hproj, hlog⟩ := h
  rcases resolveProject_cases now acc item with ⟨pid, hl, heq⟩ | ⟨hl, heq⟩
  · rw [heq]
    refine ⟨⟨hmap, hproj, hlog⟩, ?_⟩
    intro hrc
    rw [hrc, hmap] at hl
    injection hl with hl
    show some pid = some pc
    rw [hl]
  · rw [heq]
    have hrc : item.repo_name ≠ c := by
      intro hc
      rw [hc, hmap] at hl
      exact Option.noConfusion hl
    refine ⟨⟨?_, ?_, ?_⟩, fun hc => absurd hc hrc⟩
    · show assocLookup ((item.repo_name, (takeFresh acc.supply).1) :: acc.repoMap) c =
        some pc
      rw [assocLookup_cons_ne _ _ _ _ hrc]
      exact hmap
    · show ((acc.db.projects ++
          [{ Project.new (takeFresh acc.supply).1 now item.repo_name with
               icon := some githubIcon,
               order_index := next_project_order_index acc.db }]).filter
          (fun (p : Project) => !p.deleted && decide (p.name = c))).map Project.id = [pc]
      rw [List.filter_append]
      have hnil : (([{ Project.new (takeFresh acc.supply).1 now item.repo_name with
          icon := some githubIcon,
          order_index := next_project_order_index acc.db }] : List Project).filter
            (fun (p : Project) => !p.deleted && decide (p.name = c))) = [] := by
        simp [Project.new, hrc]
      rw [hnil, List.append_nil]
      exact hproj
    · intro op hop nt hnt
      rcases List.mem_append.mp hop with hmem | hmem
      · exact hlog op hmem nt hnt
      · rw [List.mem_singleton.mp hmem] at hnt
        exact absurd hnt (by simp)

theorem resolveProject_left (c : String) (now : Nat) (acc : SyncAcc)
    (item : GitHubIssue) (h : LeftInv c acc) :
    (item.repo_name ≠ c ∧ LeftInv c (resolveProject now acc item).2) ∨
      (item.repo_name = c ∧
        RightInv c (takeFresh acc.supply).1 (resolveProject now acc item).2 ∧
        (resolveProject now acc item).1 = some (takeFresh acc.supply).1) := by
  obtain ⟨hmap, hproj, hlog⟩ := h
  by_cases hrc : item.repo_name = c
  · right
    rcases resolveProject_cases now acc item with ⟨pid, hl, heq⟩ | ⟨hl, heq⟩
    · rw [hrc, hmap] at hl
      exact Option.noConfusion hl
    · rw [heq]
      refine ⟨hrc, ⟨?_, ?_, ?_⟩, rfl⟩
      · show assocLookup ((item.repo_name, (takeFresh acc.supply).1) :: acc.repoMap) c =
          some (takeFresh acc.supply).1
        rw [hrc]
        exact assocLookup_cons_self _ _ _
      · show ((acc.db.projects ++
            [{ Project.new (takeFresh acc.supply).1 now item.repo_name with
                 icon := some githubIcon,
                 order_index := next_project_order_index acc.db }]).filter
            (fun (p : Project) => !p.deleted && decide (p.name = c))).map Project.id =
          [(takeFresh acc.supply).1]
        rw [List.filter_append]
        have hnil : (acc.db.projects.filter
            (fun p => !p.deleted && decide (p.name = c))) = [] := by
          rw [List.filter_eq_nil_iff]
          intro p hp hq
          simp only [Bool.and_eq_true, Bool.not_eq_true', decide_eq_true_eq] at hq
          exact hproj p hp hq.1 hq.2
        rw [hnil, List.nil_append]
        simp [Project.new, hrc]
      · intro op hop nt hnt
        rcases List.mem_append.mp hop with hmem | hmem
        · intro hmeta
          exact absurd hmeta (hlog op hmem nt hnt)
        · rw [List.mem_singleton.mp hmem] at hnt
          exact absurd hnt (by simp)
  · left
    refine ⟨hrc, ?_⟩
    rcases resolveProject_cases now acc item with ⟨pid, hl, heq⟩ | ⟨hl, heq⟩
    · rw [heq]
      exact ⟨hmap, hproj, hlog⟩
    · rw [heq]
      refine ⟨?_, ?_, ?_⟩
      · show assocLookup ((item.repo_name, (takeFresh acc.supply).1) :: acc.repoMap) c =
          none
        rw [assocLookup_cons_ne _ _ _ _ hrc]
        exact hmap
      · intro p hp hdel
        rcases List.mem_append.mp hp with hmem | hmem
        · exact hproj p hmem hdel
        · rw [List.mem_singleton.mp hmem]
          simpa [Project.new] using hrc
      · intro op hop nt hnt
        rcases List.mem_append.mp hop with hmem | hmem
        · exact hlog op hmem nt hnt
        · rw [List.mem_singleton.mp hmem] at hnt
          exact absurd hnt (by simp)

theorem applyMatch_right (c pc : String) (tasks1 : List Task) (now : Nat)
    (item : GitHubIssue) (githubType : String) (pid : Option String)
    (acc1 : SyncAcc) (h : RightInv c pc acc1)
    (hpid : item.repo_name = c → pid = some pc) :
    RightInv c pc (applyMatch tasks1 now item githubType pid acc1) := by
  obtain ⟨hmap, hproj, hlog⟩ := h
  rcases applyMatch_cases tasks1 now item githubType pid acc1 with
    ⟨task, updated, hf, hp, heq⟩ | ⟨task, hf, hp, heq⟩ | ⟨hf, heq⟩ <;> rw [heq]
  · refine ⟨hmap, hproj, ?_⟩
    intro op hop nt hnt
    rcases List.mem_append.mp hop with hmem | hmem
    · exact hlog op hmem nt hnt
    · rw [List.mem_singleton.mp hmem] at hnt
      exact absurd hnt (by simp)
  · exact ⟨hmap, hproj, hlog⟩
  · refine ⟨hmap, hproj, ?_⟩
    intro op hop nt hnt hmeta
    rcases List.mem_append.mp hop with hmem | hmem
    · exact hlog op hmem nt hnt hmeta
    · rw [List.mem_singleton.mp hmem] at hnt
      injection hnt with hnt
      rw [← hnt] at hmeta ⊢
      have hrc := (mem_metadata_newTask _ _ _ _ _ _ c).mp hmeta
      rw [newTaskFromItem_project, hpid hrc]

theorem applyMatch_left (c : String) (tasks1 : List Task) (now : Nat)
    (item : GitHubIssue) (githubType : String) (pid : Option String)
    (acc1 : SyncAcc) (h : LeftInv c acc1) (hrc : item.repo_name ≠ c) :
    LeftInv c (applyMatch tasks1 now item githubType pid acc1) := by
  obtain ⟨hmap, hproj, hlog⟩ := h
  rcases applyMatch_cases tasks1 now item githubType pid acc1 with
    ⟨task, updated, hf, hp, heq⟩ | ⟨task, hf, hp, heq⟩ | ⟨hf, heq⟩ <;> rw [heq]
  · refine ⟨hmap, hproj, ?_⟩
    intro op hop nt hnt
    rcases List.mem_append.mp hop with hmem | hmem
    · exact hlog op hmem nt hnt
    · rw [List.mem_singleton.mp hmem] at hnt
      exact absurd hnt (by simp)
  · exact ⟨hmap, hproj, hlog⟩
  · refine ⟨hmap, hproj, ?_⟩
    intro op hop nt hnt
    rcases List.mem_append.mp hop with hmem | hmem
    · exact hlog op hmem nt hnt
    · rw [List.mem_singleton.mp hmem] at hnt
      injection hnt with hnt
      rw [← hnt]
      intro hmeta
      exact hrc ((mem_metadata_newTask _ _ _ _ _ _ c).mp hmeta)

theorem processItem_right (c pc : String) (tasks1 : List Task) (now : Nat)
    (acc : SyncAcc) (pair : GitHubIssue × String) (h : RightInv c pc acc) :
    RightInv c pc (processItem tasks1 now acc pair) := by
  unfold processItem
  obtain ⟨h2, hpid⟩ := resolveProject_right c pc now acc pair.1 h
  exact applyMatch_right c pc tasks1 now pair.1 pair.2 _ _ h2 hpid

theorem processItem_left (c : String) (tasks1 : List Task) (now : Nat)
    (acc : SyncAcc) (pair : GitHubIssue × String) (h : LeftInv c acc) :
    LeftInv c (processItem tasks1 now acc pair) ∨
      ∃ pc, RightInv c pc (processItem tasks1 now acc pair) := by
  unfold processItem
  rcases resolveProject_left c now acc pair.1 h with ⟨hrc, h2⟩ | ⟨hrc, h2, hp⟩
  · exact Or.inl (applyMatch_left c tasks1 now pair.1 pair.2 _ _ h2 hrc)
  · exact Or.inr ⟨_, applyMatch_right c _ tasks1 now pair.1 pair.2 _ _ h2 (fun _ => hp)⟩

theorem processItem_left_c (c : String) (tasks1 : List Task) (now : Nat)
    (acc : SyncAcc) (pair : GitHubIssue × String) (h : LeftInv c acc)
    (hrc : pair.1.repo_name = c) :
    ∃ pc, RightInv c pc (processItem tasks1 now acc pair) := by
  unfold processItem
  rcases resolveProject_left c now acc pair.1 h with ⟨hne, _⟩ | ⟨_, h2, hp⟩
  · exact absurd hrc hne
  · exact ⟨_, applyMatch_right c _ tasks1 now pair.1 pair.2 _ _ h2 (fun _ => hp)⟩

theorem foldl_processItem_right (c pc : String) (tasks1 : List Task) (now : Nat)
    (items : List (GitHubIssue × String)) :
    ∀ acc, RightInv c pc acc →
      RightInv c pc (items.foldl (processItem tasks1 now) acc) := by
  induction items with
  | nil => intro acc h; exact h
  | cons pair rest ih =>
      intro acc h
      rw [List.foldl_cons]
      exact ih _ (processItem_right c pc tasks1 now acc pair h)

theorem foldl_processItem_left (c : String) (tasks1 : List Task) (now : Nat)
    (items : List (GitHubIssue × String)) :
    ∀ acc, LeftInv c acc →
      LeftInv c (items.foldl (processItem tasks1 now) acc) ∨
        ∃ pc, RightInv c pc (items.foldl (processItem tasks1 now) acc) := by
  induction items with
  | nil => intro acc h; exact Or.inl h
  | cons pair rest ih =>
      intro acc h
      rw [List.foldl_cons]
      rcases processItem_left c tasks1 now acc pair h with hL | ⟨pc, hR⟩
      · exact ih _ hL
      · exact Or.inr ⟨pc, foldl_processItem_right c pc tasks1 now rest _ hR⟩

theorem closurePass_right (c pc : String) (seen : List String) (now : Nat) :
    ∀ (l : List Task) (acc : SyncAcc), RightInv c pc acc →
      RightInv c pc (closurePass l seen now acc) := by
  intro l
  induction l with
  | nil => intro acc h; exact h
  | cons t rest ih =>
      intro acc h
      have hstep : closurePass (t :: rest) seen now acc =
          closurePass rest seen now (closurePass [t] seen now acc) := rfl
      rw [hstep]
      refine ih _ ?_
      obtain ⟨hmap, hproj, hlog⟩ := h
      show RightInv c pc (closurePass [t] seen now acc)
      unfold closurePass
      simp only [List.foldl_cons, List.foldl_nil]
      cases hurl : t.context_url with
      | none => exact ⟨hmap, hproj, hlog⟩
      | some url =>
          simp only
          by_cases hcond : (containsSubstr url ("github.com") &&
              !(decide (url ∈ seen)) && decide (t.status ≠ TaskStatus.completed)) = true
          · rw [if_pos hcond]
            refine ⟨hmap, hproj, ?_⟩
            intro op hop nt hnt
            rcases List.mem_append.mp hop with hmem | hmem
            · exact hlog op hmem nt hnt
            · rw [List.mem_singleton.mp hmem] at hnt
              exact absurd hnt (by simp)
          · rw [if_neg hcond]
            exact ⟨hmap, hproj, hlog⟩

/-- Claim C5 (amended): when at least one remote item (in particular, when
two or more items share it) resolves to a container name matching no
loaded project's name, one pass provisions exactly one project for that
container — the loaded result holds a single project named `c`, whose id
is `pc` — and every task created for an item of that container is attached
to `pc`.  (A matched pre-existing task that already has a project keeps
it, per the counterexample.) -/
theorem claim_C5_single_project (db : DB) (data : GitHubData) (now : Nat)
    (supply : List String) (c : String)
    (hc : ∀ p ∈ get_all_projects db, p.name ≠ c)
    (hi : ∃ pair ∈ allItems data, pair.1.repo_name = c) :
    ∃ pc,
      ((get_all_projects (sync_github_to_tasks db data now supply).1).filter
          (fun p => decide (p.name = c))).map Project.id = [pc] ∧
        ∀ op ∈ (sync_github_to_tasks db data now supply).2, ∀ nt,
          op = WriteOp.insertTask nt → ("github_repo", c) ∈ nt.metadata →
            nt.project_id = some pc := by
  have hinit : LeftInv c (initialAcc db supply) := by
    refine ⟨?_, ?_, ?_⟩
    · exact assocLookup_buildMap_none (get_all_projects db) c [] hc rfl
    · intro p hp hdel
      exact hc p ((mem_get_all_projects db p).mpr ⟨hp, hdel⟩)
    · intro op hop
      exact absurd hop (List.not_mem_nil op)
  obtain ⟨pr, hpr, hprc⟩ := hi
  obtain ⟨i1, i2, hsplit⟩ := List.append_of_mem hpr
  have hfold : itemsPhase db data now supply =
      i2.foldl (processItem (get_all_tasks db) now)
        (processItem (get_all_tasks db) now
          (i1.foldl (processItem (get_all_tasks db) now) (initialAcc db supply)) pr) := by
    rw [itemsPhase, hsplit, List.foldl_append, List.foldl_cons]
  have hmid : ∃ pc, RightInv c pc (processItem (get_all_tasks db) now
      (i1.foldl (processItem (get_all_tasks db) now) (initialAcc db supply)) pr) := by
    rcases foldl_processItem_left c (get_all_tasks db) now i1 (initialAcc db supply)
        hinit with hL | ⟨pc, hR⟩
    · exact processItem_left_c c _ now _ pr hL hprc
    · exact ⟨pc, processItem_right c pc _ now _ pr hR⟩
  obtain ⟨pc, hR⟩ := hmid
  have hR2 : RightInv c pc (itemsPhase db data now supply) := by
    rw [hfold]
    exact foldl_processItem_right c pc _ now i2 _ hR
  have hR3 : RightInv c pc (closurePass (get_all_tasks db)
      (itemsPhase db data now supply).seen now (itemsPhase db data now supply)) :=
    closurePass_right c pc _ now _ _ hR2
  obtain ⟨hmap, hproj, hlog⟩ := hR3
  refine ⟨pc, ?_, hlog⟩
  have hperm : List.Perm
      ((get_all_projects (sync_github_to_tasks db data now supply).1).filter
        (fun p => decide (p.name = c)))
      (((sync_github_to_tasks db data now supply).1.projects.filter
        (fun p => !p.deleted)).filter (fun p => decide (p.name = c))) :=
    (perm_insertionSortBy loadProjectLe _).filter _
  have hcomb : (((sync_github_to_tasks db data now supply).1.projects.filter
      (fun p => !p.deleted)).filter (fun p => decide (p.name = c))) =
      (sync_github_to_tasks db data now supply).1.projects.filter
        (fun p => !p.deleted && decide (p.name = c)) := by
    rw [List.filter_filter]
    exact List.filter_congr (fun a _ => by rw [Bool.and_comm])
  rw [hcomb] at hperm
  have hfinal : List.Perm
      (((get_all_projects (sync_github_to_tasks db data now supply).1).filter
        (fun p => decide (p.name = c))).map Project.id) [pc] := by
    have hm := hperm.map Project.id
    rw [show ((sync_github_to_tasks db data now supply).1.projects.filter
        (fun p => !p.deleted && decide (p.name = c))).map Project.id = [pc] from hproj]
      at hm
    exact hm
  exact List.perm_singleton.mp hfinal

/-! ## Lemma layer: congruence of stable sorting and searching (claim C1)

A reconciliation run rewrites task rows in place without touching the sort
keys of the `ORDER BY` clause, so the reloaded list lines up row-for-row
with the previous load.  These lemmas transport `Forall₂` relations through
`filter`, the insertion sort and `find?`. -/

theorem forall₂_filter {R : α → α → Prop} {p q : α → Bool} :
    ∀ {l l' : List α}, List.Forall₂ R l l' → (∀ a b, R a b → p a = q b) →
      List.Forall₂ R (l.filter p) (l'.filter q) := by
  intro l l' h hpq
  induction h with
  | nil => exact List.Forall₂.nil
  | cons hab hrest ih =>
      rename_i a b l₁ l₂
      by_cases hp : p a = true
      · rw [List.filter_cons_of_pos hp,
          List.filter_cons_of_pos (show q b = true by rw [← hpq a b hab]; exact hp)]
        exact List.Forall₂.cons hab ih
      · rw [List.filter_cons_of_neg hp,
          List.filter_cons_of_neg (show ¬q b = true by rw [← hpq a b hab]; exact hp)]
        exact ih

theorem forall₂_orderedInsertBy {R : α → α → Prop} (le : α → α → Bool)
    (hle : ∀ a b a' b', R a a' → R b b' → le a b = le a' b') :
    ∀ {l l' : List α} {a a' : α}, R a a' → List.Forall₂ R l l' →
      List.Forall₂ R (orderedInsertBy le a l) (orderedInsertBy le a' l') := by
  intro l l' a a' haa h
  induction h with
  | nil => exact List.Forall₂.cons haa List.Forall₂.nil
  | cons hbb hrest ih =>
      rename_i b b' l₁ l₂
      simp only [orderedInsertBy]
      by_cases hab : le a b = true
      · rw [if_pos hab, if_pos (by rw [← hle a b a' b' haa hbb]; exact hab)]
        exact List.Forall₂.cons haa (List.Forall₂.cons hbb hrest)
      · rw [if_neg hab, if_neg (by rw [← hle a b a' b' haa hbb]; exact hab)]
        exact List.Forall₂.cons hbb ih

theorem forall₂_insertionSortBy {R : α → α → Prop} (le : α → α → Bool)
    (hle : ∀ a b a' b', R a a' → R b b' → le a b = le a' b') :
    ∀ {l l' : List α}, List.Forall₂ R l l' →
      List.Forall₂ R (insertionSortBy le l) (insertionSortBy le l') := by
  intro l l' h
  induction h with
  | nil => exact List.Forall₂.nil
  | cons haa hrest ih => exact forall₂_orderedInsertBy le hle haa ih

theorem forall₂_find?_none {R : α → α → Prop} {p q : α → Bool} :
    ∀ {l l' : List α}, List.Forall₂ R l l' → (∀ a b, R a b → p a = q b) →
      l.find? p = none → l'.find? q = none := by
  intro l l' h hpq hnone
  induction h with
  | nil => rfl
  | cons hab hrest ih =>
      rename_i a b l₁ l₂
      by_cases hp : p a = true
      · rw [List.find?_cons_of_pos _ hp] at hnone
        exact Option.noConfusion hnone
      · rw [List.find?_cons_of_neg _ hp] at hnone
        rw [List.find?_cons_of_neg _ (by rw [← hpq a b hab]; exact hp)]
        exact ih hnone

theorem forall₂_find?_some {R : α → α → Prop} {p q : α → Bool} :
    ∀ {l l' : List α}, List.Forall₂ R l l' → (∀ a b, R a b → p a = q b) →
      ∀ a, l.find? p = some a → ∃ b, l'.find? q = some b ∧ R a b := by
  intro l l' h hpq
  induction h with
  | nil => intro a ha; exact Option.noConfusion ha
  | cons hab hrest ih =>
      rename_i x y l₁ l₂
      intro a ha
      by_cases hp : p x = true
      · rw [List.find?_cons_of_pos _ hp] at ha
        injection ha with ha
        rw [← ha]
        exact ⟨y, by rw [List.find?_cons_of_pos _ (by rw [← hpq x y hab]; exact hp)], hab⟩
      · rw [List.find?_cons_of_neg _ hp] at ha
        obtain ⟨b, hb, hr⟩ := ih a ha
        exact ⟨b, by
          rw [List.find?_cons_of_neg _ (by rw [← hpq x y hab]; exact hp)]
          exact hb, hr⟩

theorem orderedInsertBy_append (le : α → α → Bool) (b : α) (ext : List α)
    (hext : ∀ y ∈ ext, le b y = true) :
    ∀ m : List α, orderedInsertBy le b (m ++ ext) = orderedInsertBy le b m ++ ext := by
  intro m
  induction m with
  | nil =>
      cases ext with
      | nil => rfl
      | cons y ys =>
          simp only [List.nil_append, orderedInsertBy]
          rw [if_pos (hext y (List.mem_cons_self y ys))]
          rfl
  | cons c m ih =>
      simp only [List.cons_append, orderedInsertBy]
      by_cases hcb : le b c = true
      · rw [if_pos hcb, if_pos hcb]
        rfl
      · rw [if_neg hcb, if_neg hcb, List.append_eq, ih]
        rfl

theorem insertionSortBy_sorted_fix (le : α → α → Bool) :
    ∀ l : List α, l.Pairwise (fun x y => le x y = true) → insertionSortBy le l = l := by
  intro l
  induction l with
  | nil => intro _; rfl
  | cons a l ih =>
      intro h
      rw [List.pairwise_cons] at h
      have hstep : insertionSortBy le (a :: l) =
          orderedInsertBy le a (insertionSortBy le l) := rfl
      rw [hstep, ih h.2]
      cases l with
      | nil => rfl
      | cons b l' =>
          simp only [orderedInsertBy]
          rw [if_pos (h.1 b (List.mem_cons_self b l'))]

theorem insertionSortBy_append (le : α → α → Bool) (base ext : List α)
    (hext : ext.Pairwise (fun x y => le x y = true))
    (hle : ∀ b ∈ base, ∀ y ∈ ext, le b y = true) :
    insertionSortBy le (base ++ ext) = insertionSortBy le base ++ ext := by
  induction base with
  | nil =>
      rw [List.nil_append]
      exact insertionSortBy_sorted_fix le ext hext
  | cons b base ih =>
      have h1 : insertionSortBy le ((b :: base) ++ ext) =
          orderedInsertBy le b (insertionSortBy le (base ++ ext)) := rfl
      have h2 : insertionSortBy le (b :: base) =
          orderedInsertBy le b (insertionSortBy le base) := rfl
      rw [h1, ih (fun c hc => hle c (List.mem_cons_of_mem b hc)),
        orderedInsertBy_append le b ext (hle b (List.mem_cons_self b base)), h2]

/-! ## Lemma layer: leaf facts for the idempotence claim -/

theorem resolveProject_seen (now : Nat) (acc : SyncAcc) (item : GitHubIssue) :
    (resolveProject now acc item).2.seen = item.html_url :: acc.seen := by
  rcases resolveProject_cases now acc item with ⟨pid, hl, heq⟩ | ⟨hl, heq⟩ <;> rw [heq]

theorem resolveProject_pid_isSome (now : Nat) (acc : SyncAcc) (item : GitHubIssue) :
    ((resolveProject now acc item).1).isSome = true := by
  rcases resolveProject_cases now acc item with ⟨pid, hl, heq⟩ | ⟨hl, heq⟩ <;> rw [heq] <;>
    rfl

theorem applyMatch_repoMap (tasks1 : List Task) (now : Nat) (item : GitHubIssue)
    (githubType : String) (pid : Option String) (acc1 : SyncAcc) :
    (applyMatch tasks1 now item githubType pid acc1).repoMap = acc1.repoMap := by
  rcases applyMatch_cases tasks1 now item githubType pid acc1 with
    ⟨task, updated, hf, hp, heq⟩ | ⟨task, hf, hp, heq⟩ | ⟨hf, heq⟩ <;> rw [heq]

theorem processExistingTask_none_iff (item : GitHubIssue) (proj : Option String)
    (now : Nat) (t : Task) :
    processExistingTask item proj now t = none ↔
      ¬(item.state = "closed" ∧ t.status ≠ .completed) ∧
        ¬(t.project_id = none ∧ proj.isSome = true) := by
  rw [processExistingTask_eq]
  by_cases h1 : item.state = "closed" ∧ t.status ≠ TaskStatus.completed <;>
    by_cases h2 : t.project_id = none ∧ proj.isSome = true
  · rw [if_pos h1, if_pos h2]; simp [h1, h2]
  · rw [if_pos h1, if_neg h2]; simp [h1, h2]
  · rw [if_neg h1, if_pos h2]; simp [h1, h2]
  · rw [if_neg h1, if_neg h2]; simp [h1, h2]

theorem processExistingTask_open_write (item : GitHubIssue) (proj : Option String)
    (now : Nat) (t v : Task) (hopen : item.state ≠ "closed")
    (h : processExistingTask item proj now t = some v) :
    v.project_id = proj ∧ proj.isSome = true := by
  rw [processExistingTask_eq] at h
  have h1 : ¬(item.state = "closed" ∧ t.status ≠ TaskStatus.completed) :=
    fun hc => hopen hc.1
  rw [if_neg h1] at h
  by_cases h2 : t.project_id = none ∧ proj.isSome = true
  · rw [if_pos h2] at h
    injection h with h
    rw [← h]
    exact ⟨rfl, h2.2⟩
  · rw [if_neg h2] at h
    exact Option.noConfusion h

theorem newTaskFromItem_fields (id : String) (now : Nat) (item : GitHubIssue)
    (githubType : String) (pid : Option String) (idx : Int) :
    (newTaskFromItem id now item githubType pid idx).id = id ∧
      (newTaskFromItem id now item githubType pid idx).context_url =
        some item.html_url ∧
      (newTaskFromItem id now item githubType pid idx).deleted = false ∧
      (newTaskFromItem id now item githubType pid idx).order_index = idx ∧
      (newTaskFromItem id now item githubType pid idx).status = .inbox := by
  refine ⟨?_, ?_, ?_, ?_, ?_⟩ <;> simp [newTaskFromItem, Task.new]

theorem le_foldl_max : ∀ (xs : List Int) (a x : Int), (x = a ∨ x ∈ xs) →
    x ≤ xs.foldl max a := by
  intro xs
  induction xs with
  | nil =>
      intro a x h
      rcases h with rfl | h
      · exact le_refl x
      · exact absurd h (List.not_mem_nil x)
  | cons b xs ih =>
      intro a x h
      rw [List.foldl_cons]
      rcases h with rfl | h
      · exact le_trans (le_max_left x b) (ih (max x b) (max x b) (Or.inl rfl))
      · rcases List.mem_cons.mp h with rfl | h
        · exact le_trans (le_max_right a x) (ih (max a x) (max a x) (Or.inl rfl))
        · exact ih (max a b) x (Or.inr h)

theorem next_task_order_index_lt (db : DB) (r : Task) (hr : r ∈ db.tasks)
    (hdel : r.deleted = false) : r.order_index < next_task_order_index db := by
  have hmem : r.order_index ∈ (db.tasks.filter (fun t => !t.deleted)).map
      Task.order_index :=
    List.mem_map_of_mem Task.order_index
      (List.mem_filter.mpr ⟨hr, by simp [hdel]⟩)
  unfold next_task_order_index nextOrderIndexOf
  cases hmap : (db.tasks.filter (fun t => !t.deleted)).map Task.order_index with
  | nil => rw [hmap] at hmem; exact absurd hmem (List.not_mem_nil _)
  | cons x xs =>
      rw [hmap] at hmem
      have := le_foldl_max xs x r.order_index
        (by rcases List.mem_cons.mp hmem with h | h
            · exact Or.inl h
            · exact Or.inr h)
      show r.order_index < xs.foldl max x + 1
      omega

theorem forall₂_rowrel_refl : ∀ l : List Task, List.Forall₂ RowRel l l := by
  intro l
  induction l with
  | nil => exact List.Forall₂.nil
  | cons a l ih => exact List.Forall₂.cons ⟨rfl, rfl, rfl, rfl, rfl⟩ ih

theorem rel_of_forall₂_mem {R : α → β → Prop} :
    ∀ {l : List α} {l' : List β}, List.Forall₂ R l l' → ∀ a ∈ l,
      ∃ b ∈ l', R a b := by
  intro l l' h
  induction h with
  | nil => intro a ha; exact absurd ha (List.not_mem_nil a)
  | cons hab hrest ih =>
      rename_i x y l₁ l₂
      intro a ha
      rcases List.mem_cons.mp ha with rfl | ha
      · exact ⟨y, List.mem_cons_self y l₂, hab⟩
      · obtain ⟨b, hb, hr⟩ := ih a ha
        exact ⟨b, List.mem_cons_of_mem y hb, hr⟩

theorem forall₂_map_right_of {R : α → β → Prop} (f : β → β) :
    ∀ {l : List α} {l' : List β}, List.Forall₂ R l l' →
      (∀ a ∈ l, ∀ b, R a b → R a (f b)) → List.Forall₂ R l (l'.map f) := by
  intro l l' h
  induction h with
  | nil => intro _; exact List.Forall₂.nil
  | cons hab hrest ih =>
      rename_i x y l₁ l₂
      intro hf
      rw [List.map_cons]
      exact List.Forall₂.cons (hf x (List.mem_cons_self x l₁) y hab)
        (ih (fun a ha b hb => hf a (List.mem_cons_of_mem x ha) b hb))

theorem map_eq_self_of (f : α → α) :
    ∀ l : List α, (∀ y ∈ l, f y = y) → l.map f = l := by
  intro l
  induction l with
  | nil => intro _; rfl
  | cons a l ih =>
      intro h
      rw [List.map_cons, h a (List.mem_cons_self a l),
        ih (fun y hy => h y (List.mem_cons_of_mem a hy))]

theorem assocLookup_cons_isSome (k v n : String) (m : List (String × String))
    (h : (assocLookup m n).isSome = true) :
    (assocLookup ((k, v) :: m) n).isSome = true := by
  by_cases hk : k = n
  · rw [hk, assocLookup_cons_self]
    rfl
  · rw [assocLookup_cons_ne _ _ _ _ hk]
    exact h

theorem assocLookup_buildMap_isSome (ps : List Project) (n : String) :
    ∀ m₀, ((∃ p ∈ ps, p.name = n) ∨ (assocLookup m₀ n).isSome = true) →
      (assocLookup (ps.foldl (fun m p => (p.name, p.id) :: m) m₀) n).isSome = true := by
  induction ps with
  | nil =>
      intro m₀ h
      rcases h with ⟨p, hp, -⟩ | h
      · exact absurd hp (List.not_mem_nil p)
      · exact h
  | cons p ps ih =>
      intro m₀ h
      rw [List.foldl_cons]
      rcases h with ⟨q, hq, hqn⟩ | h
      · rcases List.mem_cons.mp hq with rfl | hq
        · exact ih _ (Or.inr (by rw [hqn, assocLookup_cons_self]; rfl))
        · exact ih _ (Or.inl ⟨q, hq, hqn⟩)
      · exact ih _ (Or.inr (assocLookup_cons_isSome _ _ _ _ h))

theorem assocLookup_buildMap_sound (ps : List Project) (n : String) :
    ∀ m₀, (assocLookup (ps.foldl (fun m p => (p.name, p.id) :: m) m₀) n).isSome = true →
      (∃ p ∈ ps, p.name = n) ∨ (assocLookup m₀ n).isSome = true := by
  induction ps with
  | nil => intro m₀ h; exact Or.inr h
  | cons p ps ih =>
      intro m₀ h
      rw [List.foldl_cons] at h
      rcases ih _ h with ⟨q, hq, hqn⟩ | h
      · exact Or.inl ⟨q, List.mem_cons_of_mem p hq, hqn⟩
      · by_cases hp : p.name = n
        · exact Or.inl ⟨p, List.mem_cons_self p ps, hp⟩
        · rw [assocLookup_cons_ne _ _ _ _ hp] at h
          exact Or.inr h

theorem closurePass_seen (seen : List String) (now : Nat) :
    ∀ (l : List Task) (acc : SyncAcc), (closurePass l seen now acc).seen = acc.seen := by
  intro l
  induction l with
  | nil => intro acc; rfl
  | cons t rest ih =>
      intro acc
      have hstep : closurePass (t :: rest) seen now acc =
          closurePass rest seen now (closurePass [t] seen now acc) := rfl
      rw [hstep, ih]
      unfold closurePass
      simp only [List.foldl_cons, List.foldl_nil]
      cases hurl : t.context_url with
      | none => rfl
      | some url =>
          simp only
          by_cases hcond : (containsSubstr url ("github.com") &&
              !(decide (url ∈ seen)) && decide (t.status ≠ TaskStatus.completed)) = true
          · rw [if_pos hcond]
          · rw [if_neg hcond]

theorem closurePass_repoMap (seen : List String) (now : Nat) :
    ∀ (l : List Task) (acc : SyncAcc),
      (closurePass l seen now acc).repoMap = acc.repoMap := by
  intro l
  induction l with
  | nil => intro acc; rfl
  | cons t rest ih =>
      intro acc
      have hstep : closurePass (t :: rest) seen now acc =
          closurePass rest seen now (closurePass [t] seen now acc) := rfl
      rw [hstep, ih]
      unfold closurePass
      simp only [List.foldl_cons, List.foldl_nil]
      cases hurl : t.context_url with
      | none => rfl
      | some url =>
          simp only
          by_cases hcond : (containsSubstr url ("github.com") &&
              !(decide (url ∈ seen)) && decide (t.status ≠ TaskStatus.completed)) = true
          · rw [if_pos hcond]
          · rw [if_neg hcond]

theorem closurePass_projects (seen : List String) (now : Nat) :
    ∀ (l : List Task) (acc : SyncAcc),
      (closurePass l seen now acc).db.projects = acc.db.projects := by
  intro l
  induction l with
  | nil => intro acc; rfl
  | cons t rest ih =>
      intro acc
      have hstep : closurePass (t :: rest) seen now acc =
          closurePass rest seen now (closurePass [t] seen now acc) := rfl
      rw [hstep, ih]
      unfold closurePass
      simp only [List.foldl_cons, List.foldl_nil]
      cases hurl : t.context_url with
      | none => rfl
      | some url =>
          simp only
          by_cases hcond : (containsSubstr url ("github.com") &&
              !(decide (url ∈ seen)) && decide (t.status ≠ TaskStatus.completed)) = true
          · rw [if_pos hcond]
            rfl
          · rw [if_neg hcond]

theorem applyMatch_projects (tasks1 : List Task) (now : Nat) (item : GitHubIssue)
    (githubType : String) (pid : Option String) (acc1 : SyncAcc) :
    (applyMatch tasks1 now item githubType pid acc1).db.projects =
      acc1.db.projects := by
  rcases applyMatch_cases tasks1 now item githubType pid acc1 with
    ⟨task, updated, hf, hp, heq⟩ | ⟨task, hf, hp, heq⟩ | ⟨hf, heq⟩ <;> rw [heq] <;> rfl

theorem processItem_C1Inv (db0 : DB) (supply0 : List String) (now : Nat)
    (hids : (db0.tasks.map Task.id).Nodup)
    (hfresh : ∀ r ∈ db0.tasks, r.id ≠ "fresh" ∧ r.id ∉ supply0)
    (acc : SyncAcc) (pair : GitHubIssue × String)
    (hopen : pair.1.state ≠ "closed")
    (h : C1Inv db0 supply0 acc) :
    C1Inv db0 supply0 (processItem (get_all_tasks db0) now acc pair) := by
  obtain ⟨⟨old, new, hsplit, hrel, hnewF, hnewPW⟩, hG2, hG3, hsfx⟩ := h
  have hacc1tasks : (resolveProject now acc pair.1).2.db.tasks = acc.db.tasks :=
    resolveProject_db_tasks now acc pair.1
  have hacc1seen : (resolveProject now acc pair.1).2.seen =
      pair.1.html_url :: acc.seen := resolveProject_seen now acc pair.1
  have hacc1sfx : List.IsSuffix (resolveProject now acc pair.1).2.supply supply0 :=
    (resolveProject_supply_sfx now acc pair.1).trans hsfx
  have hpidsome : ((resolveProject now acc pair.1).1).isSome = true :=
    resolveProject_pid_isSome now acc pair.1
  have hinv1 : C1Inv db0 supply0 (resolveProject now acc pair.1).2 := by
    refine ⟨⟨old, new, by rw [hacc1tasks]; exact hsplit, hrel, ?_, hnewPW⟩,
      ?_, ?_, hacc1sfx⟩
    · intro y hy
      obtain ⟨h1, h2, h3, ⟨u', hu1, hu2⟩, h5⟩ := hnewF y hy
      exact ⟨h1, h2, h3, ⟨u', hu1, by rw [hacc1seen]; exact List.mem_cons_of_mem _ hu2⟩, h5⟩
    · intro x hx
      rw [hacc1tasks] at hx
      exact hG2 x hx
    · intro x hx
      rw [hacc1tasks] at hx
      rcases hG3 x hx with h | ⟨u', hu1, hu2⟩
      · exact Or.inl h
      · exact Or.inr ⟨u', hu1, by rw [hacc1seen]; exact List.mem_cons_of_mem _ hu2⟩
  obtain ⟨⟨old1, new1, hsplit1, hrel1, hnewF1, hnewPW1⟩, hG2a, hG3a, hsfx1⟩ := hinv1
  unfold processItem
  rcases applyMatch_cases (get_all_tasks db0) now pair.1 pair.2
      (resolveProject now acc pair.1).1 (resolveProject now acc pair.1).2 with
    ⟨T, v, hf, hp, heq⟩ | ⟨T, hf, hp, heq⟩ | ⟨hf, heq⟩
  · -- an in-place update of the matched task
    rw [heq]
    have hTmem1 : T ∈ get_all_tasks db0 := List.mem_of_find?_eq_some hf
    have hTdb : T ∈ db0.tasks := ((mem_get_all_tasks db0 T).mp hTmem1).1
    have hTfresh := hfresh T hTdb
    have hvframe := processExistingTask_frame _ _ _ _ _ hp
    have hvid : v.id = T.id := hvframe.1
    have hvproj : v.project_id.isSome = true := by
      obtain ⟨hpe, hps⟩ := processExistingTask_open_write _ _ _ _ _ hopen hp
      rw [hpe]
      exact hps
    have hvurl : v.context_url = some pair.1.html_url := by
      rw [hvframe.2.1]
      exact matchesUrl_context _ _ (List.find?_some hf)
    have hmapnew : new1.map (fun r => if r.id = v.id then v else r) = new1 := by
      refine map_eq_self_of _ new1 (fun y hy => if_neg ?_)
      intro hc
      have hyFresh := (hnewF1 y hy).2.2.1
      rw [hvid] at hc
      rcases List.mem_cons.mp hyFresh with h' | h'
      · apply hTfresh.1
        rw [← hc]
        exact h'
      · apply hTfresh.2
        rw [← hc]
        exact h'
    have htasks : (update_task (resolveProject now acc pair.1).2.db v).tasks =
        old1.map (fun r => if r.id = v.id then v else r) ++ new1 := by
      show (resolveProject now acc pair.1).2.db.tasks.map
          (fun r => if r.id = v.id then v else r) = _
      rw [hsplit1, List.map_append, hmapnew]
    refine ⟨⟨old1.map (fun r => if r.id = v.id then v else r), new1, htasks, ?_,
      hnewF1, hnewPW1⟩, ?_, ?_, hsfx1⟩
    · refine forall₂_map_right_of _ hrel1 ?_
      intro r hr x hrx
      by_cases hxid : x.id = v.id
      · have hrT : r = T := by
          refine List.inj_on_of_nodup_map hids hr hTdb ?_
          rw [← hrx.1, hxid, hvid]
        show RowRel r (if x.id = v.id then v else x)
        rw [if_pos hxid, hrT]
        exact ⟨hvframe.1, hvframe.2.1, hvframe.2.2.1, hvframe.2.2.2.1,
          hvframe.2.2.2.2.1⟩
      · show RowRel r (if x.id = v.id then v else x)
        rw [if_neg hxid]
        exact hrx
    · intro x' hx' T' hT' hid
      have hx'' : x' ∈ (resolveProject now acc pair.1).2.db.tasks.map
          (fun r => if r.id = v.id then v else r) := hx'
      obtain ⟨x, hx, hfx⟩ := List.mem_map.mp hx''
      by_cases hxid : x.id = v.id
      · rw [← hfx, if_pos hxid]
        exact Or.inr hvproj
      · rw [← hfx, if_neg hxid]
        exact hG2a x hx T' hT' (by rw [← hfx, if_neg hxid] at hid; exact hid)
    · intro x' hx'
      have hx'' : x' ∈ (resolveProject now acc pair.1).2.db.tasks.map
          (fun r => if r.id = v.id then v else r) := hx'
      obtain ⟨x, hx, hfx⟩ := List.mem_map.mp hx''
      by_cases hxid : x.id = v.id
      · rw [← hfx, if_pos hxid]
        refine Or.inr ⟨pair.1.html_url, hvurl, ?_⟩
        rw [hacc1seen]
        exact List.mem_cons_self _ _
      · rw [← hfx, if_neg hxid]
        exact hG3a x hx
  · -- a matched task that needs no write
    rw [heq]
    exact ⟨⟨old1, new1, hsplit1, hrel1, hnewF1, hnewPW1⟩, hG2a, hG3a, hsfx1⟩
  · -- creation of a task for an unmatched item
    rw [heq]
    have hflds := newTaskFromItem_fields (takeFresh (resolveProject now acc pair.1).2.supply).1
      now pair.1 pair.2 (resolveProject now acc pair.1).1
      (next_task_order_index (resolveProject now acc pair.1).2.db)
    have hntproj : (newTaskFromItem (takeFresh (resolveProject now acc pair.1).2.supply).1
        now pair.1 pair.2 (resolveProject now acc pair.1).1
        (next_task_order_index (resolveProject now acc pair.1).2.db)).project_id.isSome =
        true := by
      rw [newTaskFromItem_project]
      exact hpidsome
    have hntid : (takeFresh (resolveProject now acc pair.1).2.supply).1 ∈
        ("fresh" :: supply0 : List String) := by
      rcases takeFresh_head (resolveProject now acc pair.1).2.supply with h' | h'
      · rw [h']
        exact List.mem_cons_self _ _
      · exact List.mem_cons_of_mem _ (hsfx1.subset h')
    have horder : ∀ r ∈ db0.tasks, r.deleted = false →
        r.order_index < next_task_order_index (resolveProject now acc pair.1).2.db := by
      intro r hr hrdel
      obtain ⟨x, hx, hrx⟩ := rel_of_forall₂_mem hrel1 r hr
      have hxmem : x ∈ (resolveProject now acc pair.1).2.db.tasks := by
        rw [hsplit1]
        exact List.mem_append_left _ hx
      have := next_task_order_index_lt (resolveProject now acc pair.1).2.db x hxmem
        (by rw [hrx.2.2.1, hrdel])
      rw [← hrx.2.2.2.1]
      exact this
    have htasks : (insert_task (resolveProject now acc pair.1).2.db
        (newTaskFromItem (takeFresh (resolveProject now acc pair.1).2.supply).1 now
          pair.1 pair.2 (resolveProject now acc pair.1).1
          (next_task_order_index (resolveProject now acc pair.1).2.db))).tasks =
        old1 ++ (new1 ++
          [newTaskFromItem (takeFresh (resolveProject now acc pair.1).2.supply).1 now
            pair.1 pair.2 (resolveProject now acc pair.1).1
            (next_task_order_index (resolveProject now acc pair.1).2.db)]) := by
      show (resolveProject now acc pair.1).2.db.tasks ++ _ = _
      rw [hsplit1, List.append_assoc]
    refine ⟨⟨old1, _, htasks, hrel1, ?_, ?_⟩, ?_, ?_,
      (takeFresh_sfx _).trans hsfx1⟩
    · intro y hy
      rcases List.mem_append.mp hy with hy | hy
      · exact hnewF1 y hy
      · rw [List.mem_singleton.mp hy]
        refine ⟨hntproj, hflds.2.2.1, hntid, ⟨pair.1.html_url, hflds.2.1, ?_⟩, ?_⟩
        · rw [hacc1seen]
          exact List.mem_cons_self _ _
        · intro r hr hrdel
          rw [hflds.2.2.2.1]
          exact horder r hr hrdel
    · rw [List.pairwise_append]
      refine ⟨hnewPW1, List.pairwise_singleton _ _, ?_⟩
      intro y hy z hz
      rw [List.mem_singleton.mp hz, hflds.2.2.2.1]
      have hymem : y ∈ (resolveProject now acc pair.1).2.db.tasks := by
        rw [hsplit1]
        exact List.mem_append_right _ hy
      exact next_task_order_index_lt (resolveProject now acc pair.1).2.db y hymem
        (hnewF1 y hy).2.1
    · intro x' hx' T' hT' hid
      rcases List.mem_append.mp hx' with hx | hx
      · exact hG2a x' hx T' hT' hid
      · rw [List.mem_singleton.mp hx]
        exact Or.inr hntproj
    · intro x' hx'
      rcases List.mem_append.mp hx' with hx | hx
      · exact hG3a x' hx
      · rw [List.mem_singleton.mp hx]
        refine Or.inr ⟨pair.1.html_url, hflds.2.1, ?_⟩
        rw [hacc1seen]
        exact List.mem_cons_self _ _

theorem foldl_processItem_C1Inv (db0 : DB) (supply0 : List String) (now : Nat)
    (hids : (db0.tasks.map Task.id).Nodup)
    (hfresh : ∀ r ∈ db0.tasks, r.id ≠ "fresh" ∧ r.id ∉ supply0)
    (items : List (GitHubIssue × String))
    (hopen : ∀ pair ∈ items, pair.1.state ≠ "closed") :
    ∀ acc, C1Inv db0 supply0 acc →
      C1Inv db0 supply0 (items.foldl (processItem (get_all_tasks db0) now) acc) := by
  induction items with
  | nil => intro acc h; exact h
  | cons pair rest ih =>
      intro acc h
      rw [List.foldl_cons]
      exact ih (fun q hq => hopen q (List.mem_cons_of_mem pair hq)) _
        (processItem_C1Inv db0 supply0 now hids hfresh acc pair
          (hopen pair (List.mem_cons_self pair rest)) h)

theorem initial_C1Inv (db0 : DB) (supply0 : List String)
    (hids : (db0.tasks.map Task.id).Nodup) :
    C1Inv db0 supply0 (initialAcc db0 supply0) := by
  refine ⟨⟨db0.tasks, [], (List.append_nil db0.tasks).symm, forall₂_rowrel_refl db0.tasks,
    ?_, List.Pairwise.nil⟩, ?_, ?_, List.suffix_refl supply0⟩
  · intro y hy
    exact absurd hy (List.not_mem_nil y)
  · intro x hx T hT hid
    have hTdb : T ∈ db0.tasks := ((mem_get_all_tasks db0 T).mp hT).1
    exact Or.inl (List.inj_on_of_nodup_map hids hx hTdb hid)
  · intro x hx
    exact Or.inl hx

theorem update_task_all (db : DB) (v : Task) :
    ∀ x ∈ (update_task db v).tasks, x.id = v.id → x = v := by
  intro x hx hid
  obtain ⟨a, ha, hfa⟩ := List.mem_map.mp hx
  by_cases haid : a.id = v.id
  · rw [← hfa, if_pos haid]
  · rw [← hfa, if_neg haid] at hid
    exact absurd hid haid

theorem closurePass_covers (seen : List String) (now : Nat) :
    ∀ (l : List Task) (acc : SyncAcc),
      ∀ x ∈ (closurePass l seen now acc).db.tasks,
        x ∈ acc.db.tasks ∨ ∃ S ∈ l, x = closeTask now S := by
  intro l
  induction l with
  | nil => intro acc x hx; exact Or.inl hx
  | cons t rest ih =>
      intro acc x hx
      have hstep : closurePass (t :: rest) seen now acc =
          closurePass rest seen now (closurePass [t] seen now acc) := rfl
      rw [hstep] at hx
      rcases ih _ x hx with hx1 | ⟨S, hS, hxS⟩
      · have hx1' : x ∈ (closurePass [t] seen now acc).db.tasks := hx1
        revert hx1'
        unfold closurePass
        simp only [List.foldl_cons, List.foldl_nil]
        cases hurl : t.context_url with
        | none => exact fun hx' => Or.inl hx'
        | some url =>
            simp only
            by_cases hcond : (containsSubstr url ("github.com") &&
                !(decide (url ∈ seen)) && decide (t.status ≠ TaskStatus.completed)) = true
            · rw [if_pos hcond]
              intro hx'
              obtain ⟨a, ha, hfa⟩ := List.mem_map.mp hx'
              by_cases haid : a.id = (closeTask now t).id
              · rw [← hfa, if_pos haid]
                exact Or.inr ⟨t, List.mem_cons_self t rest, rfl⟩
              · rw [← hfa, if_neg haid]
                exact Or.inl ha
            · rw [if_neg hcond]
              exact fun hx' => Or.inl hx'
      · exact Or.inr ⟨S, List.mem_cons_of_mem t hS, hxS⟩

theorem closurePass_id_prop (P : Task → Prop) (i : String) (seen : List String)
    (now : Nat) :
    ∀ (l : List Task),
      (∀ S ∈ l, S.id = i → ∀ u, S.context_url = some u →
        containsSubstr u ("github.com") = true → u ∉ seen →
        S.status ≠ .completed → P (closeTask now S)) →
      ∀ acc, (∀ x ∈ acc.db.tasks, x.id = i → P x) →
        ∀ x ∈ (closurePass l seen now acc).db.tasks, x.id = i → P x := by
  intro l
  induction l with
  | nil => intro _ acc hacc x hx hid; exact hacc x hx hid
  | cons t rest ih =>
      intro hno acc hacc
      have hstep : closurePass (t :: rest) seen now acc =
          closurePass rest seen now (closurePass [t] seen now acc) := rfl
      rw [hstep]
      refine ih (fun S hS => hno S (List.mem_cons_of_mem t hS)) _ ?_
      show ∀ x ∈ (closurePass [t] seen now acc).db.tasks, x.id = i → P x
      unfold closurePass
      simp only [List.foldl_cons, List.foldl_nil]
      cases hurl : t.context_url with
      | none => exact hacc
      | some url =>
          simp only
          by_cases hcond : (containsSubstr url ("github.com") &&
              !(decide (url ∈ seen)) && decide (t.status ≠ TaskStatus.completed)) = true
          · rw [if_pos hcond]
            intro x hx hid
            obtain ⟨a, ha, hfa⟩ := List.mem_map.mp hx
            simp only [Bool.and_eq_true, Bool.not_eq_true', decide_eq_false_iff_not,
              decide_eq_true_eq] at hcond
            by_cases haid : a.id = (closeTask now t).id
            · rw [← hfa, if_pos haid]
              have htid : t.id = i := by
                rw [← hfa, if_pos haid] at hid
                exact hid
              exact hno t (List.mem_cons_self t rest) htid url hurl hcond.1.1
                hcond.1.2 hcond.2
            · rw [← hfa, if_neg haid]
              rw [← hfa, if_neg haid] at hid
              exact hacc a ha hid
          · rw [if_neg hcond]
            exact hacc

theorem closurePass_closes_value (seen : List String) (now : Nat)
    (l : List Task) (t : Task) (hmem : t ∈ l)
    (huniq : ∀ S ∈ l, S.id = t.id → S = t)
    (u : String) (hurl : t.context_url = some u)
    (hgh : containsSubstr u ("github.com") = true) (hseen : u ∉ seen)
    (hst : t.status ≠ .completed) :
    ∀ acc, ∀ x ∈ (closurePass l seen now acc).db.tasks, x.id = t.id →
      x = closeTask now t := by
  obtain ⟨l1, l2, rfl⟩ := List.append_of_mem hmem
  intro acc
  rw [show (l1 ++ t :: l2 : List Task) = l1 ++ ([t] ++ l2) from by simp,
    closurePass_append, closurePass_append]
  refine closurePass_id_prop (fun x => x = closeTask now t) t.id seen now l2 ?_ _ ?_
  · intro S hS hSid u' hSurl hgh' hseen' hst'
    rw [huniq S (List.mem_cons_of_mem t (List.mem_append_right l1
      (List.mem_cons_of_mem t hS)) |> fun _ => List.mem_append_right l1
        (List.mem_cons_of_mem t hS)) hSid]
  · rw [closurePass_single_hit seen now t u _ hurl hgh hseen hst]
    exact update_task_all _ _

theorem rel_of_forall₂_mem_right {R : α → β → Prop} :
    ∀ {l : List α} {l' : List β}, List.Forall₂ R l l' → ∀ b ∈ l',
      ∃ a ∈ l, R a b := by
  intro l l' h
  induction h with
  | nil => intro b hb; exact absurd hb (List.not_mem_nil b)
  | cons hab hrest ih =>
      rename_i x y l₁ l₂
      intro b hb
      rcases List.mem_cons.mp hb with rfl | hb
      · exact ⟨x, List.mem_cons_self x l₁, hab⟩
      · obtain ⟨a, ha, hr⟩ := ih b hb
        exact ⟨a, List.mem_cons_of_mem x ha, hr⟩

theorem find?_append_none (l₁ l₂ : List α) (p : α → Bool)
    (h : l₁.find? p = none) : (l₁ ++ l₂).find? p = l₂.find? p := by
  induction l₁ with
  | nil => rfl
  | cons a l ih =>
      by_cases ha : p a = true
      · rw [List.find?_cons_of_pos _ ha] at h
        exact Option.noConfusion h
      · rw [List.find?_cons_of_neg _ ha] at h
        rw [List.cons_append, List.find?_cons_of_neg _ ha]
        exact ih h

theorem processItem_rows_monotone (tasks1 : List Task) (now : Nat) (acc : SyncAcc)
    (pair : GitHubIssue × String) (hopen : pair.1.state ≠ "closed") :
    ∀ x ∈ (processItem tasks1 now acc pair).db.tasks,
      x ∈ acc.db.tasks ∨ x.project_id.isSome = true := by
  unfold processItem
  have hacc1 : (resolveProject now acc pair.1).2.db.tasks = acc.db.tasks :=
    resolveProject_db_tasks now acc pair.1
  rcases applyMatch_cases tasks1 now pair.1 pair.2 (resolveProject now acc pair.1).1
      (resolveProject now acc pair.1).2 with
    ⟨task, updated, hf, hp, heq⟩ | ⟨task, hf, hp, heq⟩ | ⟨hf, heq⟩ <;> rw [heq]
  · intro x hx
    obtain ⟨a, ha, hfa⟩ := List.mem_map.mp hx
    by_cases haid : a.id = updated.id
    · rw [← hfa, if_pos haid]
      have hw := processExistingTask_open_write pair.1 _ now task updated hopen hp
      exact Or.inr (by rw [hw.1]; exact hw.2)
    · rw [← hfa, if_neg haid]
      rw [hacc1] at ha
      exact Or.inl ha
  · intro x hx
    rw [hacc1] at hx
    exact Or.inl hx
  · intro x hx
    rcases List.mem_append.mp hx with h | h
    · rw [hacc1] at h
      exact Or.inl h
    · rw [List.mem_singleton.mp h]
      refine Or.inr ?_
      have hpj : (newTaskFromItem (takeFresh (resolveProject now acc pair.1).2.supply).1
          now pair.1 pair.2 (resolveProject now acc pair.1).1
          (next_task_order_index (resolveProject now acc pair.1).2.db)).project_id =
          (resolveProject now acc pair.1).1 := rfl
      rw [hpj]
      exact resolveProject_pid_isSome now acc pair.1

theorem foldl_processItem_postA (tasks1 : List Task) (now : Nat)
    (items : List (GitHubIssue × String)) (i : String)
    (hopen : ∀ pair ∈ items, pair.1.state ≠ "closed") :
    ∀ acc, (∀ x ∈ acc.db.tasks, x.id = i → x.project_id.isSome = true) →
      ∀ x ∈ (items.foldl (processItem tasks1 now) acc).db.tasks, x.id = i →
        x.project_id.isSome = true := by
  induction items with
  | nil => intro acc h; exact h
  | cons pair rest ih =>
      intro acc h
      rw [List.foldl_cons]
      refine ih (fun q hq => hopen q (List.mem_cons_of_mem pair hq)) _ ?_
      intro x hx hid
      rcases processItem_rows_monotone tasks1 now acc pair
          (hopen pair (List.mem_cons_self pair rest)) x hx with hx' | hsome
      · exact h x hx' hid
      · exact hsome

theorem processItem_postA (db0 : DB) (supply0 : List String) (now : Nat)
    (acc : SyncAcc) (pair : GitHubIssue × String)
    (hopen : pair.1.state ≠ "closed")
    (hinv : C1Inv db0 supply0 acc)
    (T : Task)
    (hfT : (get_all_tasks db0).find? (matchesUrl pair.1.html_url) = some T) :
    ∀ x ∈ (processItem (get_all_tasks db0) now acc pair).db.tasks,
      x.id = T.id → x.project_id.isSome = true := by
  obtain ⟨-, hG2, -, -⟩ := hinv
  have hTmem : T ∈ get_all_tasks db0 := List.mem_of_find?_eq_some hfT
  have hacc1 : (resolveProject now acc pair.1).2.db.tasks = acc.db.tasks :=
    resolveProject_db_tasks now acc pair.1
  have hpidsome : ((resolveProject now acc pair.1).1).isSome = true :=
    resolveProject_pid_isSome now acc pair.1
  unfold processItem
  rcases applyMatch_cases (get_all_tasks db0) now pair.1 pair.2
      (resolveProject now acc pair.1).1 (resolveProject now acc pair.1).2 with
    ⟨task, updated, hf, hp, heq⟩ | ⟨task, hf, hp, heq⟩ | ⟨hf, heq⟩ <;> rw [heq]
  · rw [hf] at hfT
    injection hfT with htask
    intro x hx hid
    obtain ⟨a, ha, hfa⟩ := List.mem_map.mp hx
    by_cases haid : a.id = updated.id
    · rw [← hfa, if_pos haid]
      have hw := processExistingTask_open_write pair.1 _ now task updated hopen hp
      rw [hw.1]
      exact hw.2
    · rw [← hfa, if_neg haid] at hid
      have hupid : updated.id = task.id := (processExistingTask_frame _ _ _ _ _ hp).1
      rw [hupid, htask] at haid
      exact absurd hid haid
  · rw [hf] at hfT
    injection hfT with htask
    have hnone := (processExistingTask_none_iff pair.1 _ now task).mp hp
    have hTproj : T.project_id.isSome = true := by
      rcases hop : T.project_id with - | v
      · exact absurd ⟨by rw [← htask] at hop; exact hop, hpidsome⟩ hnone.2
      · rfl
    intro x hx hid
    rw [hacc1] at hx
    rcases hG2 x hx T hTmem hid with rfl | hsome
    · exact hTproj
    · exact hsome
  · rw [hf] at hfT
    exact Option.noConfusion hfT

theorem processItem_postB (db0 : DB) (supply0 : List String) (now : Nat)
    (acc : SyncAcc) (pair : GitHubIssue × String)
    (hsfx : List.IsSuffix acc.supply supply0)
    (hfT : (get_all_tasks db0).find? (matchesUrl pair.1.html_url) = none) :
    ∃ nt ∈ (processItem (get_all_tasks db0) now acc pair).db.tasks,
      nt.context_url = some pair.1.html_url ∧ nt.deleted = false ∧
        nt.project_id.isSome = true ∧
        nt.id ∈ ("fresh" :: supply0 : List String) := by
  have hsfx1 : List.IsSuffix (resolveProject now acc pair.1).2.supply supply0 :=
    (resolveProject_supply_sfx now acc pair.1).trans hsfx
  unfold processItem
  rcases applyMatch_cases (get_all_tasks db0) now pair.1 pair.2
      (resolveProject now acc pair.1).1 (resolveProject now acc pair.1).2 with
    ⟨task, updated, hf, hp, heq⟩ | ⟨task, hf, hp, heq⟩ | ⟨hf, heq⟩
  · rw [hf] at hfT; exact Option.noConfusion hfT
  · rw [hf] at hfT; exact Option.noConfusion hfT
  · rw [heq]
    have hflds := newTaskFromItem_fields
      (takeFresh (resolveProject now acc pair.1).2.supply).1 now pair.1 pair.2
      (resolveProject now acc pair.1).1
      (next_task_order_index (resolveProject now acc pair.1).2.db)
    refine ⟨_, List.mem_append_right _ (List.mem_singleton_self _),
      hflds.2.1, hflds.2.2.1, ?_, ?_⟩
    · have hpj : (newTaskFromItem (takeFresh (resolveProject now acc pair.1).2.supply).1
          now pair.1 pair.2 (resolveProject now acc pair.1).1
          (next_task_order_index (resolveProject now acc pair.1).2.db)).project_id =
          (resolveProject now acc pair.1).1 := rfl
      rw [hpj]
      exact resolveProject_pid_isSome now acc pair.1
    · rw [hflds.1]
      rcases takeFresh_head (resolveProject now acc pair.1).2.supply with h | h
      · rw [h]
        exact List.mem_cons_self _ _
      · exact List.mem_cons_of_mem _ (hsfx1.subset h)

theorem closurePass_struct (db0 : DB) (supply0 : List String)
    (hids : (db0.tasks.map Task.id).Nodup)
    (hfresh : ∀ r ∈ db0.tasks, r.id ≠ "fresh" ∧ r.id ∉ supply0)
    (seen : List String) (now : Nat) :
    ∀ (l : List Task), (∀ S ∈ l, S ∈ db0.tasks) →
      ∀ (acc : SyncAcc) (old new : List Task),
        acc.db.tasks = old ++ new →
        List.Forall₂ RowRel db0.tasks old →
        (∀ y ∈ new, y.id ∈ ("fresh" :: supply0 : List String)) →
        ∃ old', (closurePass l seen now acc).db.tasks = old' ++ new ∧
          List.Forall₂ RowRel db0.tasks old' := by
  intro l
  induction l with
  | nil => intro _ acc old new h1 h2 _; exact ⟨old, h1, h2⟩
  | cons t rest ih =>
      intro hmem acc old new h1 h2 h3
      have hstep : closurePass (t :: rest) seen now acc =
          closurePass rest seen now (closurePass [t] seen now acc) := rfl
      rw [hstep]
      have hone : ∃ old', (closurePass [t] seen now acc).db.tasks = old' ++ new ∧
          List.Forall₂ RowRel db0.tasks old' := by
        unfold closurePass
        simp only [List.foldl_cons, List.foldl_nil]
        cases hurl : t.context_url with
        | none => exact ⟨old, h1, h2⟩
        | some url =>
            simp only
            by_cases hcond : (containsSubstr url ("github.com") &&
                !(decide (url ∈ seen)) && decide (t.status ≠ TaskStatus.completed)) = true
            · rw [if_pos hcond]
              refine ⟨old.map (fun r => if r.id = (closeTask now t).id then
                closeTask now t else r), ?_, ?_⟩
              · show acc.db.tasks.map (fun r => if r.id = (closeTask now t).id then
                  closeTask now t else r) = _
                rw [h1, List.map_append]
                congr 1
                apply map_eq_self_of
                intro y hy
                have hyid := h3 y hy
                have hne : ¬(y.id = (closeTask now t).id) := by
                  have htid : (closeTask now t).id = t.id := rfl
                  rw [htid]
                  intro hc
                  have ht0 := hfresh t (hmem t (List.mem_cons_self t rest))
                  rcases List.mem_cons.mp hyid with h | h
                  · exact ht0.1 (hc.symm.trans h)
                  · refine ht0.2 ?_
                    rw [← hc]
                    exact h
                rw [if_neg hne]
              · refine forall₂_map_right_of _ h2 ?_
                intro a ha b hb
                by_cases hbid : b.id = (closeTask now t).id
                · rw [if_pos hbid]
                  have htid : (closeTask now t).id = t.id := rfl
                  rw [htid] at hbid
                  have hat : a = t := by
                    apply List.inj_on_of_nodup_map hids ha
                      (hmem t (List.mem_cons_self t rest))
                    rw [← hb.1]
                    exact hbid
                  rw [hat]
                  exact ⟨rfl, rfl, rfl, rfl, rfl⟩
                · rw [if_neg hbid]
                  exact hb
            · rw [if_neg hcond]
              exact ⟨old, h1, h2⟩
      obtain ⟨old', ho1, ho2⟩ := hone
      exact ih (fun S hS => hmem S (List.mem_cons_of_mem t hS)) _ old' new ho1 ho2 h3

theorem insert_project_mem_self (db : DB) (p : Project) :
    p ∈ (insert_project db p).projects :=
  List.mem_append_right _ (List.mem_singleton_self p)

theorem insert_project_mem_of (db : DB) (p q : Project) (h : q ∈ db.projects) :
    q ∈ (insert_project db p).projects :=
  List.mem_append_left _ h

theorem processItem_keyinv (tasks1 : List Task) (now : Nat) (acc : SyncAcc)
    (pair : GitHubIssue × String)
    (h : ∀ n, (assocLookup acc.repoMap n).isSome = true →
      ∃ p ∈ acc.db.projects, p.deleted = false ∧ p.name = n) :
    ∀ n, (assocLookup (processItem tasks1 now acc pair).repoMap n).isSome = true →
      ∃ p ∈ (processItem tasks1 now acc pair).db.projects,
        p.deleted = false ∧ p.name = n := by
  unfold processItem
  simp only [applyMatch_repoMap, applyMatch_projects]
  rcases resolveProject_cases now acc pair.1 with ⟨pid, hl, heq⟩ | ⟨hl, heq⟩ <;> rw [heq]
  · exact h
  · intro n hn
    by_cases hrn : pair.1.repo_name = n
    · refine ⟨_, insert_project_mem_self acc.db _, ?_, ?_⟩
      · simp [Project.new]
      · simp [Project.new]
        exact hrn
    · have hn' : (assocLookup acc.repoMap n).isSome = true := by
        have hcons : assocLookup ((pair.1.repo_name, (takeFresh acc.supply).1) ::
            acc.repoMap) n = assocLookup acc.repoMap n :=
          assocLookup_cons_ne _ _ _ _ hrn
        rw [show ((pair.1.repo_name, (takeFresh acc.supply).1) :: acc.repoMap) =
          ((pair.1.repo_name, (takeFresh acc.supply).1) :: acc.repoMap) from rfl] at hcons
        exact hcons ▸ hn
      obtain ⟨p, hp, hdel, hname⟩ := h n hn'
      exact ⟨p, insert_project_mem_of acc.db _ p hp, hdel, hname⟩

theorem processItem_lookup_mono (tasks1 : List Task) (now : Nat) (acc : SyncAcc)
    (pair : GitHubIssue × String) (n : String)
    (h : (assocLookup acc.repoMap n).isSome = true) :
    (assocLookup (processItem tasks1 now acc pair).repoMap n).isSome = true := by
  unfold processItem
  rw [applyMatch_repoMap]
  rcases resolveProject_cases now acc pair.1 with ⟨pid, hl, heq⟩ | ⟨hl, heq⟩ <;> rw [heq]
  · exact h
  · exact assocLookup_cons_isSome _ _ _ _ h

theorem processItem_lookup_self (tasks1 : List Task) (now : Nat) (acc : SyncAcc)
    (pair : GitHubIssue × String) :
    (assocLookup (processItem tasks1 now acc pair).repoMap pair.1.repo_name).isSome
      = true := by
  unfold processItem
  rw [applyMatch_repoMap]
  rcases resolveProject_cases now acc pair.1 with ⟨pid, hl, heq⟩ | ⟨hl, heq⟩ <;> rw [heq]
  · show (assocLookup acc.repoMap pair.1.repo_name).isSome = true
    rw [hl]
    rfl
  · show (assocLookup ((pair.1.repo_name, (takeFresh acc.supply).1) :: acc.repoMap)
      pair.1.repo_name).isSome = true
    rw [assocLookup_cons_self]
    rfl

theorem foldl_processItem_lookup_mono (tasks1 : List Task) (now : Nat)
    (items : List (GitHubIssue × String)) (n : String) :
    ∀ acc, (assocLookup acc.repoMap n).isSome = true →
      (assocLookup ((items.foldl (processItem tasks1 now) acc)).repoMap n).isSome
        = true := by
  induction items with
  | nil => intro acc h; exact h
  | cons pair rest ih =>
      intro acc h
      rw [List.foldl_cons]
      exact ih _ (processItem_lookup_mono tasks1 now acc pair n h)

theorem foldl_processItem_keyinv (tasks1 : List Task) (now : Nat)
    (items : List (GitHubIssue × String)) :
    ∀ acc, (∀ n, (assocLookup acc.repoMap n).isSome = true →
        ∃ p ∈ acc.db.projects, p.deleted = false ∧ p.name = n) →
      ∀ n, (assocLookup ((items.foldl (processItem tasks1 now) acc)).repoMap n).isSome
          = true →
        ∃ p ∈ ((items.foldl (processItem tasks1 now) acc)).db.projects,
          p.deleted = false ∧ p.name = n := by
  induction items with
  | nil => intro acc h; exact h
  | cons pair rest ih =>
      intro acc h
      rw [List.foldl_cons]
      exact ih _ (processItem_keyinv tasks1 now acc pair h)

theorem foldl_processItem_lookup (tasks1 : List Task) (now : Nat)
    (items : List (GitHubIssue × String)) :
    ∀ acc, ∀ pair ∈ items,
      (assocLookup ((items.foldl (processItem tasks1 now) acc)).repoMap
        pair.1.repo_name).isSome = true := by
  induction items with
  | nil => intro acc pair hp; exact absurd hp (List.not_mem_nil pair)
  | cons q rest ih =>
      intro acc pair hp
      rw [List.foldl_cons]
      rcases List.mem_cons.mp hp with rfl | hp
      · exact foldl_processItem_lookup_mono tasks1 now rest pair.1.repo_name _
          (processItem_lookup_self tasks1 now acc pair)
      · exact ih _ pair hp

theorem processItem_noop (tasks1 : List Task) (now : Nat) (acc : SyncAcc)
    (pair : GitHubIssue × String)
    (hopen : pair.1.state ≠ "closed")
    (hlookup : (assocLookup acc.repoMap pair.1.repo_name).isSome = true)
    (hmatch : ∃ T, tasks1.find? (matchesUrl pair.1.html_url) = some T ∧
      T.project_id.isSome = true) :
    processItem tasks1 now acc pair =
      { acc with seen := pair.1.html_url :: acc.seen } := by
  obtain ⟨T, hf, hproj⟩ := hmatch
  unfold processItem
  rcases resolveProject_cases now acc pair.1 with ⟨pid, hl, heq⟩ | ⟨hl, heq⟩
  · rw [heq]
    show applyMatch tasks1 now pair.1 pair.2 (some pid)
        { acc with seen := pair.1.html_url :: acc.seen } =
      { acc with seen := pair.1.html_url :: acc.seen }
    have hnone : processExistingTask pair.1 (some pid) now T = none := by
      rw [processExistingTask_none_iff]
      refine ⟨fun hc => hopen hc.1, fun hc => ?_⟩
      rw [hc.1] at hproj
      simp at hproj
    rcases applyMatch_cases tasks1 now pair.1 pair.2 (some pid)
        { acc with seen := pair.1.html_url :: acc.seen } with
      ⟨task, updated, hf', hp', heq'⟩ | ⟨task, hf', hp', heq'⟩ | ⟨hf', heq'⟩
    · rw [hf'] at hf
      injection hf with hff
      rw [hff, hnone] at hp'
      exact Option.noConfusion hp'
    · exact heq'
    · rw [hf'] at hf
      exact Option.noConfusion hf
  · rw [hl] at hlookup
    simp at hlookup

theorem foldl_processItem_noop (tasks1 : List Task) (now : Nat) :
    ∀ (items : List (GitHubIssue × String)) (acc : SyncAcc),
      (∀ pair ∈ items, pair.1.state ≠ "closed") →
      (∀ pair ∈ items, ∃ T, tasks1.find? (matchesUrl pair.1.html_url) = some T ∧
        T.project_id.isSome = true) →
      (∀ pair ∈ items, (assocLookup acc.repoMap pair.1.repo_name).isSome = true) →
      (items.foldl (processItem tasks1 now) acc).db = acc.db ∧
        (items.foldl (processItem tasks1 now) acc).log = acc.log ∧
        (items.foldl (processItem tasks1 now) acc).repoMap = acc.repoMap ∧
        (items.foldl (processItem tasks1 now) acc).supply = acc.supply := by
  intro items
  induction items with
  | nil => intro acc _ _ _; exact ⟨rfl, rfl, rfl, rfl⟩
  | cons pair rest ih =>
      intro acc hopen hmatch hlook
      have hstep := processItem_noop tasks1 now acc pair
        (hopen pair (List.mem_cons_self pair rest))
        (hlook pair (List.mem_cons_self pair rest))
        (hmatch pair (List.mem_cons_self pair rest))
      rw [List.foldl_cons, hstep]
      exact ih { acc with seen := pair.1.html_url :: acc.seen }
        (fun q hq => hopen q (List.mem_cons_of_mem pair hq))
        (fun q hq => hmatch q (List.mem_cons_of_mem pair hq))
        (fun q hq => hlook q (List.mem_cons_of_mem pair hq))

theorem closurePass_noop (seen : List String) (now : Nat) :
    ∀ (l : List Task),
      (∀ t ∈ l, ∀ u, t.context_url = some u →
        containsSubstr u ("github.com") = true → u ∉ seen →
        t.status = .completed) →
      ∀ acc, closurePass l seen now acc = acc := by
  intro l
  induction l with
  | nil => intro _ acc; rfl
  | cons t rest ih =>
      intro hc acc
      have hstep : closurePass (t :: rest) seen now acc =
          closurePass rest seen now (closurePass [t] seen now acc) := rfl
      rw [hstep]
      have h1 : closurePass [t] seen now acc = acc := by
        unfold closurePass
        simp only [List.foldl_cons, List.foldl_nil]
        cases hurl : t.context_url with
        | none => rfl
        | some url =>
            simp only
            have hcond : ¬(containsSubstr url ("github.com") &&
                !(decide (url ∈ seen)) &&
                decide (t.status ≠ TaskStatus.completed)) = true := by
              intro hcnd
              simp only [Bool.and_eq_true, Bool.not_eq_true', decide_eq_false_iff_not,
                decide_eq_true_eq] at hcnd
              exact hcnd.2 (hc t (List.mem_cons_self t rest) url hurl hcnd.1.1 hcnd.1.2)
            rw [if_neg hcond]
      rw [h1]
      exact ih (fun s hs => hc s (List.mem_cons_of_mem t hs)) acc

theorem find?_append_some (l₁ l₂ : List α) (p : α → Bool) (x : α)
    (h : l₁.find? p = some x) : (l₁ ++ l₂).find? p = some x := by
  induction l₁ with
  | nil => exact Option.noConfusion h
  | cons a l ih =>
      by_cases ha : p a = true
      · rw [List.find?_cons_of_pos _ ha] at h
        rw [List.cons_append, List.find?_cons_of_pos _ ha]
        exact h
      · rw [List.find?_cons_of_neg _ ha] at h
        rw [List.cons_append, List.find?_cons_of_neg _ ha]
        exact ih h

theorem filter_all_true (p : α → Bool) :
    ∀ l : List α, (∀ a ∈ l, p a = true) → l.filter p = l := by
  intro l
  induction l with
  | nil => intro _; rfl
  | cons a l ih =>
      intro h
      rw [List.filter_cons_of_pos (h a (List.mem_cons_self a l)),
        ih (fun b hb => h b (List.mem_cons_of_mem a hb))]

/-- After one pass, every container named by a snapshot item has a live
project row of that name (it was either loaded or created for the item). -/
theorem sync_H1 (db : DB) (data : GitHubData) (now : Nat) (supply : List String) :
    ∀ pair ∈ allItems data,
      ∃ p ∈ get_all_projects (sync_github_to_tasks db data now supply).1,
        p.name = pair.1.repo_name := by
  intro pair hp
  have hinit : ∀ n, (assocLookup (initialAcc db supply).repoMap n).isSome = true →
      ∃ q ∈ (initialAcc db supply).db.projects, q.deleted = false ∧ q.name = n := by
    intro n hn
    rcases assocLookup_buildMap_sound (get_all_projects db) n [] hn with ⟨q, hq, hqn⟩ | hbad
    · obtain ⟨hqdb, hqdel⟩ := (mem_get_all_projects db q).mp hq
      exact ⟨q, hqdb, hqdel, hqn⟩
    · simp [assocLookup] at hbad
  have hkey := foldl_processItem_keyinv (get_all_tasks db) now (allItems data)
    (initialAcc db supply) hinit
  have hlook := foldl_processItem_lookup (get_all_tasks db) now (allItems data)
    (initialAcc db supply) pair hp
  obtain ⟨q, hq, hqdel, hqn⟩ := hkey pair.1.repo_name hlook
  refine ⟨q, ?_, hqn⟩
  rw [mem_get_all_projects]
  refine ⟨?_, hqdel⟩
  show q ∈ (closurePass (get_all_tasks db) (itemsPhase db data now supply).seen now
      (itemsPhase db data now supply)).db.projects
  rw [closurePass_projects]
  exact hq

/-- After one pass on an open-only snapshot, every live github-URL task whose
URL is absent from the snapshot is Completed. -/
theorem sync_H3 (db : DB) (data : GitHubData) (now : Nat) (supply : List String)
    (hids : (db.tasks.map Task.id).Nodup)
    (hfresh : ∀ r ∈ db.tasks, r.id ≠ "fresh" ∧ r.id ∉ supply)
    (hopen : ∀ pair ∈ allItems data, pair.1.state ≠ "closed") :
    ∀ t ∈ get_all_tasks (sync_github_to_tasks db data now supply).1,
      ∀ u, t.context_url = some u → containsSubstr u ("github.com") = true →
        u ∉ itemUrls data → t.status = .completed := by
  intro t ht u hu hgh hnot
  obtain ⟨htdb, htdel⟩ := (mem_get_all_tasks _ t).mp ht
  have htdb' : t ∈ (closurePass (get_all_tasks db) (itemsPhase db data now supply).seen
      now (itemsPhase db data now supply)).db.tasks := htdb
  rcases closurePass_covers (itemsPhase db data now supply).seen now (get_all_tasks db)
      (itemsPhase db data now supply) t htdb' with hin | ⟨S, hS, hts⟩
  · have hinv := foldl_processItem_C1Inv db supply now hids hfresh (allItems data) hopen
      (initialAcc db supply) (initial_C1Inv db supply hids)
    obtain ⟨-, -, hG3, -⟩ := hinv
    rcases hG3 t hin with hdb0 | ⟨u', hu', hseen⟩
    · by_cases hst : t.status = .completed
      · exact hst
      · have htask1 : t ∈ get_all_tasks db := (mem_get_all_tasks db t).mpr ⟨hdb0, htdel⟩
        have huniq : ∀ S' ∈ get_all_tasks db, S'.id = t.id → S' = t := by
          intro S' hS' h
          exact List.inj_on_of_nodup_map (get_all_tasks_ids_nodup db hids) hS' htask1 h
        have hseen' : u ∉ (itemsPhase db data now supply).seen := by
          intro hm
          exact hnot ((itemsPhase_seen db data now supply u).mp hm)
        have hclose := closurePass_closes_value (itemsPhase db data now supply).seen now
          (get_all_tasks db) t htask1 huniq u hu hgh hseen' hst
          (itemsPhase db data now supply) t htdb' rfl
        conv_lhs => rw [hclose]
        rfl
    · have hu'u : u' = u := by
        rw [hu] at hu'
        injection hu' with h
        exact h.symm
      refine absurd ?_ hnot
      rw [← hu'u]
      exact (itemsPhase_seen db data now supply u').mp hseen
  · rw [hts]
    rfl

/-- After one pass on an open-only snapshot, each item's URL matches a stored
task carrying a project. -/
theorem sync_H2 (db : DB) (data : GitHubData) (now : Nat) (supply : List String)
    (hids : (db.tasks.map Task.id).Nodup)
    (hfresh : ∀ r ∈ db.tasks, r.id ≠ "fresh" ∧ r.id ∉ supply)
    (hopen : ∀ pair ∈ allItems data, pair.1.state ≠ "closed") :
    ∀ pair ∈ allItems data, ∃ T,
      (get_all_tasks (sync_github_to_tasks db data now supply).1).find?
        (matchesUrl pair.1.html_url) = some T ∧ T.project_id.isSome = true := by
  intro pair hp
  have hinv1 := foldl_processItem_C1Inv db supply now hids hfresh (allItems data) hopen
    (initialAcc db supply) (initial_C1Inv db supply hids)
  obtain ⟨⟨old1, new1, hsplit1, hrel1, hnewF, hnewPW⟩, hG2₁, hG3₁, hsfx₁⟩ := hinv1
  obtain ⟨old2, hsplit2, hrel2⟩ := closurePass_struct db supply hids hfresh
    (itemsPhase db data now supply).seen now (get_all_tasks db)
    (fun S hS => ((mem_get_all_tasks db S).mp hS).1)
    (itemsPhase db data now supply) old1 new1 hsplit1 hrel1
    (fun y hy => (hnewF y hy).2.2.1)
  have hnewdel : ∀ y ∈ new1, (fun t => !t.deleted) y = true := by
    intro y hy
    have := (hnewF y hy).2.1
    simp [this]
  have hextPW : new1.Pairwise (fun x y => loadTaskLe x y = true) :=
    List.Pairwise.imp (fun h => by simp [loadTaskLe, h]) hnewPW
  have hcross : ∀ b ∈ old2.filter (fun t => !t.deleted), ∀ y ∈ new1,
      loadTaskLe b y = true := by
    intro b hb y hy
    have hbm := List.mem_filter.mp hb
    have hbdel : b.deleted = false := by
      have := hbm.2
      simp at this
      exact this
    obtain ⟨a, ha, hra⟩ := rel_of_forall₂_mem_right hrel2 b hbm.1
    have hadel : a.deleted = false := by
      rw [← hra.2.2.1]
      exact hbdel
    have hlt : a.order_index < y.order_index := (hnewF y hy).2.2.2.2 a ha hadel
    have hblt : b.order_index < y.order_index := by
      rw [hra.2.2.2.1]
      exact hlt
    simp [loadTaskLe, hblt]
  have hT2 : get_all_tasks (sync_github_to_tasks db data now supply).1 =
      insertionSortBy loadTaskLe (old2.filter (fun t => !t.deleted)) ++ new1 := by
    show insertionSortBy loadTaskLe
        (((closurePass (get_all_tasks db) (itemsPhase db data now supply).seen now
          (itemsPhase db data now supply)).db).tasks.filter (fun t => !t.deleted)) = _
    rw [hsplit2, List.filter_append, filter_all_true _ new1 hnewdel,
      insertionSortBy_append loadTaskLe _ new1 hextPW hcross]
  have hpqdel : ∀ a b : Task, RowRel a b →
      (fun t => !t.deleted) a = (fun t => !t.deleted) b := by
    intro a b h
    show (!a.deleted) = (!b.deleted)
    rw [h.2.2.1]
  have hle : ∀ a b a' b' : Task, RowRel a a' → RowRel b b' →
      loadTaskLe a b = loadTaskLe a' b' := by
    intro a b a' b' haa hbb
    simp only [loadTaskLe]
    rw [haa.2.2.2.1, haa.2.2.2.2, hbb.2.2.2.1, hbb.2.2.2.2]
  have F2 : List.Forall₂ RowRel
      (insertionSortBy loadTaskLe (db.tasks.filter (fun t => !t.deleted)))
      (insertionSortBy loadTaskLe (old2.filter (fun t => !t.deleted))) :=
    forall₂_insertionSortBy loadTaskLe hle (forall₂_filter hrel2 hpqdel)
  have hpqurl : ∀ a b : Task, RowRel a b →
      matchesUrl pair.1.html_url a = matchesUrl pair.1.html_url b := by
    intro a b h
    simp only [matchesUrl]
    rw [h.2.1]
  obtain ⟨i1, i2, hsp⟩ := List.append_of_mem hp
  have hinvA := foldl_processItem_C1Inv db supply now hids hfresh i1
    (fun q hq => hopen q (by rw [hsp]; exact List.mem_append_left _ hq))
    (initialAcc db supply) (initial_C1Inv db supply hids)
  have hacc1 : itemsPhase db data now supply =
      i2.foldl (processItem (get_all_tasks db) now)
        (processItem (get_all_tasks db) now
          (i1.foldl (processItem (get_all_tasks db) now) (initialAcc db supply)) pair) := by
    unfold itemsPhase
    rw [hsp, List.foldl_append, List.foldl_cons]
  cases hfT : (get_all_tasks db).find? (matchesUrl pair.1.html_url) with
  | some T =>
      have hpostStep := processItem_postA db supply now
        (i1.foldl (processItem (get_all_tasks db) now) (initialAcc db supply)) pair
        (hopen pair hp) hinvA T hfT
      have hpostFold := foldl_processItem_postA (get_all_tasks db) now i2 T.id
        (fun q hq => hopen q (by
          rw [hsp]
          exact List.mem_append_right _ (List.mem_cons_of_mem pair hq)))
        (processItem (get_all_tasks db) now
          (i1.foldl (processItem (get_all_tasks db) now) (initialAcc db supply)) pair)
        hpostStep
      have hpostAcc1 : ∀ x ∈ (itemsPhase db data now supply).db.tasks, x.id = T.id →
          x.project_id.isSome = true := by
        rw [hacc1]
        exact hpostFold
      have hTurl : T.context_url = some pair.1.html_url := by
        have := List.find?_some hfT
        simp only [matchesUrl, decide_eq_true_eq] at this
        exact this
      have hTmem1 : T ∈ get_all_tasks db := List.mem_of_find?_eq_some hfT
      have hno : ∀ S ∈ get_all_tasks db, S.id = T.id → ∀ u₀, S.context_url = some u₀ →
          containsSubstr u₀ ("github.com") = true →
          u₀ ∉ (itemsPhase db data now supply).seen → S.status ≠ .completed →
          (fun x => x.project_id.isSome = true) (closeTask now S) := by
        intro S hS hSid u₀ hSurl hgh hseen hst
        have hST : S = T :=
          List.inj_on_of_nodup_map (get_all_tasks_ids_nodup db hids) hS hTmem1 hSid
        have hu0 : u₀ = pair.1.html_url := by
          rw [hST, hTurl] at hSurl
          injection hSurl with h
          exact h.symm
        have hu_seen : pair.1.html_url ∈ (itemsPhase db data now supply).seen :=
          (itemsPhase_seen db data now supply pair.1.html_url).mpr
            (List.mem_map_of_mem _ hp)
        exact absurd (by rw [hu0]; exact hu_seen) hseen
      have hPost := closurePass_id_prop (fun x => x.project_id.isSome = true) T.id
        (itemsPhase db data now supply).seen now (get_all_tasks db) hno
        (itemsPhase db data now supply) hpostAcc1
      obtain ⟨x, hxfind, hrx⟩ := forall₂_find?_some F2 hpqurl T hfT
      have hfind2 : (get_all_tasks (sync_github_to_tasks db data now supply).1).find?
          (matchesUrl pair.1.html_url) = some x := by
        rw [hT2]
        exact find?_append_some _ _ _ _ hxfind
      have hxmem2 : x ∈ (closurePass (get_all_tasks db)
          (itemsPhase db data now supply).seen now
          (itemsPhase db data now supply)).db.tasks := by
        rw [hsplit2]
        apply List.mem_append_left
        have := List.mem_of_find?_eq_some hxfind
        rw [mem_insertionSortBy] at this
        exact (List.mem_filter.mp this).1
      exact ⟨x, hfind2, hPost x hxmem2 hrx.1⟩
  | none =>
      have hnone2 : (insertionSortBy loadTaskLe
          (old2.filter (fun t => !t.deleted))).find? (matchesUrl pair.1.html_url)
          = none := forall₂_find?_none F2 hpqurl hfT
      have hsfxA : List.IsSuffix
          (i1.foldl (processItem (get_all_tasks db) now) (initialAcc db supply)).supply
          supply := hinvA.2.2.2
      obtain ⟨nt, hntB, hnturl, hntdel, hntproj, hntid⟩ := processItem_postB db supply
        now (i1.foldl (processItem (get_all_tasks db) now) (initialAcc db supply)) pair
        hsfxA hfT
      have hdisj : ∀ task ∈ get_all_tasks db, task.id ≠ nt.id := by
        intro task htk hcid
        have h' := (mem_get_all_tasks db task).mp htk
        have hfr := hfresh task h'.1
        rcases List.mem_cons.mp hntid with h | h
        · exact hfr.1 (hcid.trans h)
        · refine hfr.2 ?_
          rw [hcid]
          exact h
      have hnt1 := foldl_processItem_preserves_row (get_all_tasks db) now i2 nt hdisj
        (processItem (get_all_tasks db) now
          (i1.foldl (processItem (get_all_tasks db) now) (initialAcc db supply)) pair)
        hntB
      have hntAcc1 : nt ∈ (itemsPhase db data now supply).db.tasks := by
        rw [hacc1]
        exact hnt1
      have hnt2 : nt ∈ (closurePass (get_all_tasks db)
          (itemsPhase db data now supply).seen now
          (itemsPhase db data now supply)).db.tasks :=
        closurePass_preserves_row _ now nt (get_all_tasks db) hdisj _ hntAcc1
      rw [hsplit2] at hnt2
      rcases List.mem_append.mp hnt2 with hmo | hmn
      · obtain ⟨a, ha, hra⟩ := rel_of_forall₂_mem_right hrel2 nt hmo
        have hfr := hfresh a ha
        rcases List.mem_cons.mp hntid with h | h
        · exact absurd (hra.1.symm.trans h) hfr.1
        · refine absurd ?_ hfr.2
          rw [hra.1.symm]
          exact h
      · cases hm : new1.find? (matchesUrl pair.1.html_url) with
        | none =>
            have := List.find?_eq_none.mp hm nt hmn
            exact absurd (by simp [matchesUrl, hnturl]) this
        | some m =>
            have hm_mem : m ∈ new1 := List.mem_of_find?_eq_some hm
            refine ⟨m, ?_, (hnewF m hm_mem).1⟩
            rw [hT2, find?_append_none _ _ _ hnone2]
            exact hm

/-- When every item is open, resolves to a loaded project name, and matches
a stored task that already carries a project, and every stale github task is
already Completed, the pass performs no writes and leaves the store
unchanged. -/
theorem sync_noop (db1 : DB) (data : GitHubData) (now' : Nat) (supply' : List String)
    (hopen : ∀ pair ∈ allItems data, pair.1.state ≠ "closed")
    (H1 : ∀ pair ∈ allItems data, ∃ p ∈ get_all_projects db1,
      p.name = pair.1.repo_name)
    (H2 : ∀ pair ∈ allItems data, ∃ T,
      (get_all_tasks db1).find? (matchesUrl pair.1.html_url) = some T ∧
        T.project_id.isSome = true)
    (H3 : ∀ t ∈ get_all_tasks db1, ∀ u, t.context_url = some u →
      containsSubstr u ("github.com") = true → u ∉ itemUrls data →
      t.status = .completed) :
    sync_github_to_tasks db1 data now' supply' = (db1, []) := by
  have hlook : ∀ pair ∈ allItems data,
      (assocLookup (initialAcc db1 supply').repoMap pair.1.repo_name).isSome = true := by
    intro pair hp
    exact assocLookup_buildMap_isSome (get_all_projects db1) pair.1.repo_name []
      (Or.inl (H1 pair hp))
  have hfold := foldl_processItem_noop (get_all_tasks db1) now' (allItems data)
    (initialAcc db1 supply') hopen H2 hlook
  have hdb : (itemsPhase db1 data now' supply').db = db1 := hfold.1
  have hlog : (itemsPhase db1 data now' supply').log = [] := hfold.2.1
  have hc : ∀ t ∈ get_all_tasks db1, ∀ u, t.context_url = some u →
      containsSubstr u ("github.com") = true →
      u ∉ (itemsPhase db1 data now' supply').seen → t.status = .completed := by
    intro t ht u hu hgh hseen
    refine H3 t ht u hu hgh ?_
    intro hmem
    exact hseen ((itemsPhase_seen db1 data now' supply' u).mpr hmem)
  have hclo := closurePass_noop ((itemsPhase db1 data now' supply').seen) now'
    (get_all_tasks db1) hc (itemsPhase db1 data now' supply')
  show ((closurePass (get_all_tasks db1) (itemsPhase db1 data now' supply').seen now'
      (itemsPhase db1 data now' supply')).db,
    (closurePass (get_all_tasks db1) (itemsPhase db1 data now' supply').seen now'
      (itemsPhase db1 data now' supply')).log) = (db1, [])
  rw [hclo, hdb, hlog]

/-- Claim C5 witness: two items of container `"o/r"` against the empty
store create exactly one project for it, and both created tasks attach to
it. -/
theorem claim_C5_witness :
    ∃ pc,
      ((get_all_projects (sync_github_to_tasks emptyDB cx5Data 50
          ["np", "nta", "ntb"]).1).filter
          (fun p => decide (p.name = "o/r"))).map Project.id = [pc] ∧
        ∀ op ∈ (sync_github_to_tasks emptyDB cx5Data 50 ["np", "nta", "ntb"]).2, ∀ nt,
          op = WriteOp.insertTask nt → ("github_repo", "o/r") ∈ nt.metadata →
            nt.project_id = some pc :=
  claim_C5_single_project emptyDB cx5Data 50 ["np", "nta", "ntb"] "o/r"
    (by decide) ⟨(cx5Item1, "issue"), by decide, by decide⟩

/-- Claim C1 (amended): reconciliation is idempotent on open-only snapshots.
For any store whose rows have distinct ids, none of which collides with the
fresh-id supply, and any snapshot in which every item is open (which the
fetcher's open-only queries guarantee), running the reconciliation a second
time immediately after a first run on the same snapshot performs no writes
and leaves the stored database exactly as the first run left it. -/
theorem claim_C1_idempotent (db : DB) (data : GitHubData) (now now' : Nat)
    (supply supply' : List String)
    (hids : (db.tasks.map Task.id).Nodup)
    (hfresh : ∀ r ∈ db.tasks, r.id ≠ "fresh" ∧ r.id ∉ supply)
    (hopen : ∀ pair ∈ allItems data, pair.1.state ≠ "closed") :
    sync_github_to_tasks (sync_github_to_tasks db data now supply).1 data now' supply'
      = ((sync_github_to_tasks db data now supply).1, []) :=
  sync_noop (sync_github_to_tasks db data now supply).1 data now' supply' hopen
    (sync_H1 db data now supply)
    (sync_H2 db data now supply hids hfresh hopen)
    (sync_H3 db data now supply hids hfresh hopen)

/-- Claim C1 witness: one open item against the empty store; the second run
writes nothing and returns the first run's database. -/
theorem claim_C1_witness :
    (∀ pair ∈ allItems wOpenData, pair.1.state ≠ "closed") ∧
      sync_github_to_tasks (sync_github_to_tasks emptyDB wOpenData 5 ["w1", "w2"]).1
          wOpenData 9 ["w3"]
        = ((sync_github_to_tasks emptyDB wOpenData 5 ["w1", "w2"]).1, []) :=
  ⟨by
    intro pair hp
    simp [allItems, wOpenData] at hp
    rw [hp]
    decide,
   claim_C1_idempotent emptyDB wOpenData 5 9 ["w1", "w2"] ["w3"]
     (by simp [emptyDB])
     (by simp [emptyDB])
     (by
       intro pair hp
       simp [allItems, wOpenData] at hp
       rw [hp]
       decide)⟩

end Phitodo
